import Mathlib

/-!
Verification development for the night-market circuits crate.

The development shallowly embeds the code of `src/circuits/src`:

* `merkle_tree.rs`: the sparse Merkle tree (`SparseMerkleTree`, `insert_batch`,
  `generate_membership_proof`, `root`), the native path algorithms
  (`Path::calculate_root`, `check_membership`, `get_index`) and the
  arithmetized path algorithm (`PathVar::root_hash`, `check_membership`).
* `circuit/main.rs` (`MainCircuit::generate_constraints`),
  `circuit/main_splitted.rs` (`MainSpendCircuit`, `MainSettleCircuit`) and
  `circuit/migration.rs` (`MigrationCircuit`): each circuit is embedded as the
  predicate over its witness record stating that every constraint emitted by
  `generate_constraints` holds for the assigned values (the semantics of
  arkworks' `cs.is_satisfied()`), together with the ordered trace of variable
  allocations performed by `generate_constraints`.

The field is `ZMod p`.  The hash capability (a variable-arity compression hash
`crh` and a two-to-one hash `tto`, used both natively and arithmetized with the
same parameters) is kept abstract as a pair of functions; the circuits of the
crate are generic over the hasher in exactly this way.  Both the old
byte-oriented CRH API (`circuit/main.rs`) and the field-oriented CRHScheme API
(`main_splitted.rs`, `migration.rs`) hash the same sequences of field
elements, so both are embedded through the same abstract `Hasher`.
-/

namespace NightMarket

/-! ## Sparse Merkle tree: data and operations (`merkle_tree.rs`) -/

/-- Error enum of `merkle_tree.rs` (`MerkleError`). -/
inductive MerkleError where
  | invalidLeaf
  | invalidPathNodes
deriving DecidableEq, Repr

instance {ε α : Type} [DecidableEq ε] [DecidableEq α] : DecidableEq (Except ε α) := fun x y =>
  match x, y with
  | .error a, .error b => if h : a = b then isTrue (by rw [h]) else isFalse (by simp [h])
  | .ok a, .ok b => if h : a = b then isTrue (by rw [h]) else isFalse (by simp [h])
  | .error _, .ok _ => isFalse (by simp)
  | .ok _, .error _ => isFalse (by simp)

/-- Point update of the node map, the embedding of `self.tree.insert(i, v)`
on the `BTreeMap<u64, F>` of node index to node value. -/
def put {p : ℕ} (t : ℕ → Option (ZMod p)) (i : ℕ) (v : ZMod p) : ℕ → Option (ZMod p) :=
  fun j => if j = i then some v else t j

/-- `self.tree.get(&j).unwrap_or(&e)`. -/
def getOr {p : ℕ} (t : ℕ → Option (ZMod p)) (j : ℕ) (e : ZMod p) : ZMod p :=
  (t j).getD e

/-- One level of `SparseMerkleTree::insert_batch`: iterate over the (ascending)
dirty indices `idxs`; recompute each node `i` from its children
(`2*i+1`, `2*i+2`), substituting the level's empty hash `e` for an absent
child; collect each processed node's parent for the next level, except that
reaching node `0` ends the level (the `break` in the source). Returns the
updated node map and the collected parent indices in processing order. -/
def processLevelGo {p : ℕ} (h2 : ZMod p → ZMod p → ZMod p) (e : ZMod p) :
    (ℕ → Option (ZMod p)) → List ℕ → (ℕ → Option (ZMod p)) × List ℕ
  | t, [] => (t, [])
  | t, i :: rest =>
    let t1 := put t i (h2 (getOr t (2 * i + 1) e) (getOr t (2 * i + 2) e))
    if i = 0 then
      (t1, [])
    else
      let r := processLevelGo h2 e t1 rest
      (r.1, (i - 1) / 2 :: r.2)

/-- The `for level in 0..N` loop of `insert_batch`: at level `lvl` the empty
hash `e lvl` is used, and the parents collected at one level (as a deduplicated
set, the `BTreeSet` of the source) become the dirty indices of the next. -/
def runLevelsGo {p : ℕ} (h2 : ZMod p → ZMod p → ZMod p) (e : ℕ → ZMod p) :
    ℕ → ℕ → (ℕ → Option (ZMod p)) → List ℕ → (ℕ → Option (ZMod p))
  | 0, _, t, _ => t
  | fuel + 1, lvl, t, idxs =>
    let r := processLevelGo h2 (e lvl) t idxs
    runLevelsGo h2 e fuel (lvl + 1) r.1 r.2.dedup

/-- The sparse Merkle tree: a map from node index to value plus the
per-level empty-subtree hashes (`empty_hashes: [F; N]`). -/
structure SparseMerkleTree (p : ℕ) where
  tree : ℕ → Option (ZMod p)
  emptyHashes : List (ZMod p)

/-- `empty_hashes[k]`, as a total function (out-of-range reads do not occur in
the algorithms for trees whose `emptyHashes` list has the depth's length). -/
def eAt {p : ℕ} (s : SparseMerkleTree p) : ℕ → ZMod p :=
  fun k => s.emptyHashes.getD k 0

/-- `SparseMerkleTree::insert_batch`: store each leaf `(i, v)` at node index
`2^N - 1 + i`, mark the parents of the stored leaves dirty (a `BTreeSet`,
embedded as a deduplicated ascending list), then recompute level by level. -/
def SparseMerkleTree.insertBatch {p : ℕ} (N : ℕ) (h2 : ZMod p → ZMod p → ZMod p)
    (s : SparseMerkleTree p) (leaves : List (ℕ × ZMod p)) : SparseMerkleTree p :=
  let last := 2 ^ N - 1
  let t1 := leaves.foldl (fun t iv => put t (last + iv.1) iv.2) s.tree
  let idxs := (leaves.map (fun iv => (last + iv.1 - 1) / 2)).dedup
  { tree := runLevelsGo h2 (eAt s) N 0 t1 idxs, emptyHashes := s.emptyHashes }

/-- The empty-subtree hashes computed by `SparseMerkleTree::new`:
`empty_hashes[0]` is the empty leaf and each next entry is the two-to-one hash
of the previous entry with itself. -/
def mkEmptyHashes {p : ℕ} (h2 : ZMod p → ZMod p → ZMod p) : ℕ → ZMod p → List (ZMod p)
  | 0, _ => []
  | k + 1, e => e :: mkEmptyHashes h2 k (h2 e e)

/-- The state of `SparseMerkleTree::new` before its `insert_batch` call:
no stored node, and the `N` empty-subtree hashes. -/
def SparseMerkleTree.emptyTree (p N : ℕ) (h2 : ZMod p → ZMod p → ZMod p)
    (emptyLeaf : ZMod p) : SparseMerkleTree p :=
  { tree := fun _ => none, emptyHashes := mkEmptyHashes h2 N emptyLeaf }

/-- `SparseMerkleTree::root`: the node at index 0, or the last empty hash when
no node is stored there (`none` embeds the `unwrap` panic on an empty
`empty_hashes` array, which cannot occur for positive depth). -/
def SparseMerkleTree.root {p : ℕ} (s : SparseMerkleTree p) : Option (ZMod p) :=
  match s.tree 0 with
  | some v => some v
  | none => s.emptyHashes.getLast?

/-- The walk of `generate_membership_proof`: from node `cur` record, for each
level, the pair of the current node's value and its sibling's value in tree
order (the odd index is the left child), substituting the level's empty hash
for absent nodes, then step to the parent.  The walk of the source runs until
the root is reached, which for a leaf index takes exactly depth-many steps,
the `fuel` of this embedding. -/
def genProofGo {p : ℕ} (t : ℕ → Option (ZMod p)) (e : ℕ → ZMod p) :
    ℕ → ℕ → ℕ → List (ZMod p × ZMod p)
  | 0, _, _ => []
  | fuel + 1, lvl, cur =>
    let sib := if cur % 2 = 1 then cur + 1 else cur - 1
    let cv := getOr t cur (e lvl)
    let sv := getOr t sib (e lvl)
    (if cur % 2 = 1 then (cv, sv) else (sv, cv)) :: genProofGo t e fuel (lvl + 1) ((cur - 1) / 2)

/-- `SparseMerkleTree::generate_membership_proof(index)`: the recorded
sibling-pair path from leaf node `index + 2^N - 1` up to the root. -/
def SparseMerkleTree.generateMembershipProof {p : ℕ} (N : ℕ) (s : SparseMerkleTree p)
    (index : ℕ) : List (ZMod p × ZMod p) :=
  genProofGo s.tree (eAt s) N 0 (index + 2 ^ N - 1)

/-- The level loop of `Path::calculate_root`: fail with `InvalidPathNodes`
when the running value matches neither element of the current pair, else
replace it by the pair's two-to-one hash. -/
def calcRootGo {p : ℕ} (h2 : ZMod p → ZMod p → ZMod p) :
    ZMod p → List (ZMod p × ZMod p) → Except MerkleError (ZMod p)
  | prev, [] => .ok prev
  | prev, (l, r) :: rest =>
    if prev ≠ l ∧ prev ≠ r then .error .invalidPathNodes
    else calcRootGo h2 (h2 l r) rest

/-- `Path::calculate_root(leaf)`: require the leaf to equal one element of the
path's first pair (`InvalidLeaf` otherwise; an empty path, which would be an
out-of-bounds `path[0]` access in the source and cannot occur for positive
depth, is embedded as `InvalidLeaf` too), then replay the levels. -/
def calculateRoot {p : ℕ} (h2 : ZMod p → ZMod p → ZMod p)
    (path : List (ZMod p × ZMod p)) (leaf : ZMod p) : Except MerkleError (ZMod p) :=
  match path with
  | [] => .error .invalidLeaf
  | (l0, r0) :: _ =>
    if leaf ≠ l0 ∧ leaf ≠ r0 then .error .invalidLeaf
    else calcRootGo h2 leaf path

/-- `Path::check_membership`: recomputed root equals the expected root. -/
def checkMembership {p : ℕ} (h2 : ZMod p → ZMod p → ZMod p)
    (path : List (ZMod p × ZMod p)) (rootHash leaf : ZMod p) : Except MerkleError Bool :=
  (calculateRoot h2 path leaf).map (· = rootHash)

/-- The level loop of `Path::get_index`: when the running value differs from
the stored left element, add the current power of two to the index; double the
power; replace the running value by the pair's hash. -/
def getIndexGo {p : ℕ} (h2 : ZMod p → ZMod p → ZMod p) :
    ZMod p → ZMod p → ZMod p → List (ZMod p × ZMod p) → ZMod p
  | _, idx, _, [] => idx
  | prev, idx, two, (l, r) :: rest =>
    getIndexGo h2 (h2 l r) (if prev = l then idx else idx + two) (two + two) rest

/-- `Path::get_index(root_hash, leaf)`: require membership first
(`InvalidLeaf` otherwise), then re-derive the leaf position as a field
element. -/
def getIndex {p : ℕ} (h2 : ZMod p → ZMod p → ZMod p)
    (path : List (ZMod p × ZMod p)) (rootHash leaf : ZMod p) : Except MerkleError (ZMod p) :=
  match calculateRoot h2 path leaf with
  | .error e => .error e
  | .ok r => if r = rootHash then .ok (getIndexGo h2 leaf 0 1 path) else .error .invalidLeaf

/-- The arithmetized `PathVar::root_hash`, at the level of assigned values:
at each level the source tests the running value against the stored left
element and conditionally selects the hash operand order, hashing `(l, r)`
when the running value equals `l` and `(r, l)` otherwise. -/
def rootHashGadget {p : ℕ} (h2 : ZMod p → ZMod p → ZMod p)
    (leaf : ZMod p) (path : List (ZMod p × ZMod p)) : ZMod p :=
  path.foldl (fun prev pr => if prev = pr.1 then h2 pr.1 pr.2 else h2 pr.2 pr.1) leaf

/-- The arithmetized `PathVar::check_membership`, at the level of assigned
values: the expected root equals the gadget-recomputed root. -/
abbrev gadgetCheckMembership {p : ℕ} (h2 : ZMod p → ZMod p → ZMod p)
    (rootHash leaf : ZMod p) (path : List (ZMod p × ZMod p)) : Prop :=
  rootHash = rootHashGadget h2 leaf path

/-! ## Node-index geometry and tree invariants (proof infrastructure) -/

/-- Parent index in the implicit binary tree layout. -/
def nodeParent (j : ℕ) : ℕ := (j - 1) / 2

/-- `m`-fold parent. -/
def parentIter : ℕ → ℕ → ℕ
  | 0, j => j
  | m + 1, j => parentIter m (nodeParent j)

/-- `j` is a node of depth `d` (the root has depth 0, its children depth 1). -/
def IsDepth (d j : ℕ) : Prop := 2 ^ d - 1 ≤ j ∧ j < 2 ^ (d + 1) - 1

/-- Well-formedness of a node map of depth `N` with empty hashes `e`: every
stored node has a valid index, a stored parent, and — when internal — the
two-to-one hash of its children's values (absent children read as the
children's level's empty hash). -/
def WFTree (p N : ℕ) (h2 : ZMod p → ZMod p → ZMod p) (e : ℕ → ZMod p)
    (t : ℕ → Option (ZMod p)) : Prop :=
  ∀ j v, t j = some v →
    j < 2 ^ (N + 1) - 1 ∧
    (0 < j → (t (nodeParent j)).isSome) ∧
    (∀ d, IsDepth d j → d < N →
      v = h2 (getOr t (2 * j + 1) (e (N - d - 1))) (getOr t (2 * j + 2) (e (N - d - 1))))

/-- A valid insertion batch for depth `N`: strictly ascending leaf indices
(the iteration order and key uniqueness of the source's `BTreeMap<u32, F>`),
all within the leaf level's capacity. -/
abbrev ValidBatch {p : ℕ} (N : ℕ) (b : List (ℕ × ZMod p)) : Prop :=
  (b.map Prod.fst).Chain' (· < ·) ∧ ∀ x ∈ b, x.1 < 2 ^ N

/-- The trees "built via `insert_batch`": some sequence of valid batches
applied to a freshly created empty tree of depth `N`.  (`SparseMerkleTree::new`
itself is "create empty, then `insert_batch` the initial leaves", so trees
made by `new` and later extended are exactly of this shape.) -/
def BuiltFrom (p N : ℕ) (h2 : ZMod p → ZMod p → ZMod p) (emptyLeaf : ZMod p)
    (s : SparseMerkleTree p) : Prop :=
  ∃ bs : List (List (ℕ × ZMod p)),
    (∀ b ∈ bs, ValidBatch N b) ∧
    s = bs.foldl (fun acc b => acc.insertBatch N h2 b) (SparseMerkleTree.emptyTree p N h2 emptyLeaf)

/-- The set of "dirty" nodes at a point of the level loop: the pending indices
and all their ancestors, which still await recomputation. -/
def dirty (idxs : List ℕ) (a : ℕ) : Prop :=
  ∃ i ∈ idxs, ∃ m, parentIter m i = a

/-- The invariant of the level loop of `insert_batch` before processing level
`k`: pending indices sit at depth `N - 1 - k`; stored indices are in range;
every stored node's parent is stored or dirty; every stored internal node
holds the hash of its children or is dirty. -/
def LoopInv (p N : ℕ) (h2 : ZMod p → ZMod p → ZMod p) (e : ℕ → ZMod p)
    (k : ℕ) (t : ℕ → Option (ZMod p)) (idxs : List ℕ) : Prop :=
  (∀ i ∈ idxs, k < N ∧ IsDepth (N - 1 - k) i) ∧
  (∀ j v, t j = some v →
    j < 2 ^ (N + 1) - 1 ∧
    (0 < j → (t (nodeParent j)).isSome ∨ dirty idxs (nodeParent j)) ∧
    (∀ d, IsDepth d j → d < N →
      v = h2 (getOr t (2 * j + 1) (e (N - d - 1))) (getOr t (2 * j + 2) (e (N - d - 1))) ∨
        dirty idxs j))

/-! ## The hash capability and note algebra (`poseidon.rs` / `utils.rs` / circuit gadgets) -/

/-- The abstract hash capability: a compression hash over a list of field
elements (`CRH::evaluate` on the concatenated canonical bytes of the elements,
equivalently `CRHScheme::evaluate` on the element array) and a two-to-one hash
(`TwoToOneCRH::evaluate` / `TwoToOneCRHScheme::evaluate`), with one fixed
parameter set shared between the native and the arithmetized evaluator. -/
structure Hasher (p : ℕ) where
  crh : List (ZMod p) → ZMod p
  tto : ZMod p → ZMod p → ZMod p

/-- The range check `enforce_smaller_or_equal_than_mod_minus_one_div_two`:
the canonical representative is at most `(p - 1) / 2` (the non-negative half
of the half-range convention). -/
abbrev canonical (p : ℕ) (x : ZMod p) : Prop := x.val ≤ (p - 1) / 2

/-- The in-circuit constant `zero_balance_root`: the compression hash of
`N_ASSETS` zero balances. -/
def zeroBalanceRoot (p : ℕ) (h : Hasher p) (n : ℕ) : ZMod p :=
  h.crh (List.replicate n 0)

/-- `calculate_balance_root`: the compression hash of a balance vector. -/
def balanceRoot (p n : ℕ) (h : Hasher p) (bals : Fin n → ZMod p) : ZMod p :=
  h.crh (List.ofFn bals)

/-- Allocation modes of circuit variables. -/
inductive AllocMode where
  | constant
  | witnessVar
  | inputVar
deriving DecidableEq, Repr

/-! ## The Main circuit (`circuit/main.rs`) -/

namespace MainCircuit

/-- The witness record of `MainCircuit` (its struct fields of field type, with
the path as its list of sibling pairs). -/
structure Witness (p n : ℕ) where
  address : ZMod p
  nullifier : ZMod p
  utxo_root : ZMod p
  diff_balance_root : ZMod p
  diff_balances : Fin n → ZMod p
  old_note_nullifier_hash : ZMod p
  old_note_identifier : ZMod p
  old_note_path : List (ZMod p × ZMod p)
  old_note_balances : Fin n → ZMod p
  new_note : ZMod p
  new_note_blinding : ZMod p
  new_note_balances : Fin n → ZMod p

/-- The old note recomputed in-circuit: the compression hash of the old
balance root, the public old identifier and the nullifier. -/
def oldNote (p n : ℕ) (h : Hasher p) (w : Witness p n) : ZMod p :=
  h.crh [balanceRoot p n h w.old_note_balances, w.old_note_identifier, w.nullifier]

/-- `is_nullifier_valid`: the public nullifier hash equals the two-to-one hash
of the old note and the nullifier. -/
abbrev nullifierHashValid (p n : ℕ) (h : Hasher p) (w : Witness p n) : Prop :=
  w.old_note_nullifier_hash = h.tto (oldNote p n h w) w.nullifier

/-- `is_old_note_path_valid`: the arithmetized membership check of the old
note under the public UTXO root. -/
abbrev oldNotePathValid (p n : ℕ) (h : Hasher p) (w : Witness p n) : Prop :=
  gadgetCheckMembership h.tto w.utxo_root (oldNote p n h w) w.old_note_path

/-- The new-note constraint: the public new note equals the compression hash
of the new balance root, the identifier `tto(address, new blinding)` and the
nullifier. -/
abbrev newNoteValid (p n : ℕ) (h : Hasher p) (w : Witness p n) : Prop :=
  w.new_note = h.crh [balanceRoot p n h w.new_note_balances,
    h.tto w.address w.new_note_blinding, w.nullifier]

/-- The per-asset-slot constraints: both balances pass the half-range check
and the old balance plus the diff equals the new balance. -/
abbrev balancesValid (p n : ℕ) (w : Witness p n) : Prop :=
  ∀ i : Fin n, canonical p (w.old_note_balances i) ∧ canonical p (w.new_note_balances i) ∧
    w.old_note_balances i + w.diff_balances i = w.new_note_balances i

/-- All constraints emitted by `MainCircuit::generate_constraints` hold for
the assigned values (the semantics of `cs.is_satisfied()`): the diff balance
root is valid; the genesis-or-valid disjunction holds for the old note; the
new note is valid; every balance slot passes the range and conservation
checks. -/
def constraintsSatisfied (p n : ℕ) (h : Hasher p) (w : Witness p n) : Prop :=
  w.diff_balance_root = balanceRoot p n h w.diff_balances ∧
  (balanceRoot p n h w.old_note_balances = zeroBalanceRoot p h n ∨
    (nullifierHashValid p n h w ∧ oldNotePathValid p n h w)) ∧
  newNoteValid p n h w ∧
  balancesValid p n w

instance (p n : ℕ) (h : Hasher p) (w : Witness p n) :
    Decidable (constraintsSatisfied p n h w) := by
  unfold constraintsSatisfied
  infer_instance

/-- The ordered trace of variable allocations performed by
`MainCircuit::generate_constraints` (the hash-parameter constant, which is not
a field element, is omitted). -/
def allocTrace (p n : ℕ) (h : Hasher p) (w : Witness p n) : List (AllocMode × ZMod p) :=
  [(.constant, zeroBalanceRoot p h n),
   (.witnessVar, w.address), (.witnessVar, w.nullifier),
   (.inputVar, w.utxo_root),
   (.inputVar, w.diff_balance_root)] ++
  (List.ofFn w.diff_balances).map (fun v => (.witnessVar, v)) ++
  [(.inputVar, w.old_note_nullifier_hash),
   (.inputVar, w.old_note_identifier)] ++
  w.old_note_path.flatMap (fun pr => [(.witnessVar, pr.1), (.witnessVar, pr.2)]) ++
  (List.ofFn w.old_note_balances).map (fun v => (.witnessVar, v)) ++
  [(.inputVar, w.new_note),
   (.witnessVar, w.new_note_blinding)] ++
  (List.ofFn w.new_note_balances).map (fun v => (.witnessVar, v))

/-- The public-input vector: the values allocated with `new_input`, in
allocation order. -/
def publicInputs (p n : ℕ) (h : Hasher p) (w : Witness p n) : List (ZMod p) :=
  ((allocTrace p n h w).filter (fun a => a.1 = .inputVar)).map Prod.snd

end MainCircuit

/-! ## The split Spend/Settle circuits (`circuit/main_splitted.rs`) -/

namespace SpendCircuit

/-- The witness record of `MainSpendCircuit`. -/
structure Witness (p : ℕ) where
  nullifier : ZMod p
  utxo_root : ZMod p
  old_note_nullifier_hash : ZMod p
  old_note_identifier : ZMod p
  old_note_balance_root : ZMod p
  old_note_path : List (ZMod p × ZMod p)

/-- The old note recomputed in-circuit from the carried balance root. -/
def oldNote (p : ℕ) (h : Hasher p) (w : Witness p) : ZMod p :=
  h.crh [w.old_note_balance_root, w.old_note_identifier, w.nullifier]

/-- `is_nullifier_valid` of the Spend circuit. -/
abbrev nullifierHashValid (p : ℕ) (h : Hasher p) (w : Witness p) : Prop :=
  w.old_note_nullifier_hash = h.tto (oldNote p h w) w.nullifier

/-- `is_old_note_path_valid` of the Spend circuit. -/
abbrev oldNotePathValid (p : ℕ) (h : Hasher p) (w : Witness p) : Prop :=
  gadgetCheckMembership h.tto w.utxo_root (oldNote p h w) w.old_note_path

/-- All constraints of `MainSpendCircuit::generate_constraints` hold: the
genesis disjunct additionally demands a zero nullifier hash. -/
def constraintsSatisfied (p n : ℕ) (h : Hasher p) (w : Witness p) : Prop :=
  (w.old_note_balance_root = zeroBalanceRoot p h n ∧ w.old_note_nullifier_hash = 0) ∨
  (nullifierHashValid p h w ∧ oldNotePathValid p h w)

instance (p n : ℕ) (h : Hasher p) (w : Witness p) :
    Decidable (constraintsSatisfied p n h w) := by
  unfold constraintsSatisfied
  infer_instance

end SpendCircuit

namespace SettleCircuit

/-- The witness record of `MainSettleCircuit` (it has an `aux` public input
and no Merkle path). -/
structure Witness (p n : ℕ) where
  address : ZMod p
  nullifier : ZMod p
  aux : ZMod p
  diff_balance_root : ZMod p
  diff_balances : Fin n → ZMod p
  old_note_nullifier_hash : ZMod p
  old_note_identifier : ZMod p
  old_note_balances : Fin n → ZMod p
  new_note : ZMod p
  new_note_blinding : ZMod p
  new_note_balances : Fin n → ZMod p

/-- The old note recomputed in-circuit. -/
def oldNote (p n : ℕ) (h : Hasher p) (w : Witness p n) : ZMod p :=
  h.crh [balanceRoot p n h w.old_note_balances, w.old_note_identifier, w.nullifier]

/-- `is_nullifier_valid` of the Settle circuit. -/
abbrev nullifierHashValid (p n : ℕ) (h : Hasher p) (w : Witness p n) : Prop :=
  w.old_note_nullifier_hash = h.tto (oldNote p n h w) w.nullifier

/-- The new-note constraint of the Settle circuit. -/
abbrev newNoteValid (p n : ℕ) (h : Hasher p) (w : Witness p n) : Prop :=
  w.new_note = h.crh [balanceRoot p n h w.new_note_balances,
    h.tto w.address w.new_note_blinding, w.nullifier]

/-- The per-asset-slot range and conservation constraints. -/
abbrev balancesValid (p n : ℕ) (w : Witness p n) : Prop :=
  ∀ i : Fin n, canonical p (w.old_note_balances i) ∧ canonical p (w.new_note_balances i) ∧
    w.old_note_balances i + w.diff_balances i = w.new_note_balances i

/-- All constraints of `MainSettleCircuit::generate_constraints` hold: the
diff root is valid; the genesis disjunct (zero balance root and zero nullifier
hash) or nullifier validity holds, with no membership check; the new note is
valid; every slot passes range and conservation checks. -/
def constraintsSatisfied (p n : ℕ) (h : Hasher p) (w : Witness p n) : Prop :=
  w.diff_balance_root = balanceRoot p n h w.diff_balances ∧
  ((balanceRoot p n h w.old_note_balances = zeroBalanceRoot p h n ∧
      w.old_note_nullifier_hash = 0) ∨
    nullifierHashValid p n h w) ∧
  newNoteValid p n h w ∧
  balancesValid p n w

instance (p n : ℕ) (h : Hasher p) (w : Witness p n) :
    Decidable (constraintsSatisfied p n h w) := by
  unfold constraintsSatisfied
  infer_instance

/-- The ordered allocation trace of `MainSettleCircuit::generate_constraints`
(the parameter constant omitted): `aux` is its first public input. -/
def allocTrace (p n : ℕ) (h : Hasher p) (w : Witness p n) : List (AllocMode × ZMod p) :=
  [(.constant, zeroBalanceRoot p h n),
   (.witnessVar, w.address), (.witnessVar, w.nullifier),
   (.inputVar, w.aux),
   (.inputVar, w.diff_balance_root)] ++
  (List.ofFn w.diff_balances).map (fun v => (.witnessVar, v)) ++
  [(.inputVar, w.old_note_nullifier_hash),
   (.inputVar, w.old_note_identifier)] ++
  (List.ofFn w.old_note_balances).map (fun v => (.witnessVar, v)) ++
  [(.inputVar, w.new_note),
   (.witnessVar, w.new_note_blinding)] ++
  (List.ofFn w.new_note_balances).map (fun v => (.witnessVar, v))

/-- The public-input vector of the Settle circuit, in allocation order. -/
def publicInputs (p n : ℕ) (h : Hasher p) (w : Witness p n) : List (ZMod p) :=
  ((allocTrace p n h w).filter (fun a => a.1 = .inputVar)).map Prod.snd

end SettleCircuit

/-- The Spend witness corresponding to a Main witness: the shared values are
carried over and `old_note_balance_root` is the root computed from the Main
witness's old balances. -/
def toSpend (p n : ℕ) (h : Hasher p) (w : MainCircuit.Witness p n) : SpendCircuit.Witness p :=
  { nullifier := w.nullifier
    utxo_root := w.utxo_root
    old_note_nullifier_hash := w.old_note_nullifier_hash
    old_note_identifier := w.old_note_identifier
    old_note_balance_root := balanceRoot p n h w.old_note_balances
    old_note_path := w.old_note_path }

/-- The Settle witness corresponding to a Main witness (plus an `aux` value,
which the Main circuit does not carry). -/
def toSettle (p n : ℕ) (w : MainCircuit.Witness p n) (aux : ZMod p) : SettleCircuit.Witness p n :=
  { address := w.address
    nullifier := w.nullifier
    aux := aux
    diff_balance_root := w.diff_balance_root
    diff_balances := w.diff_balances
    old_note_nullifier_hash := w.old_note_nullifier_hash
    old_note_identifier := w.old_note_identifier
    old_note_balances := w.old_note_balances
    new_note := w.new_note
    new_note_blinding := w.new_note_blinding
    new_note_balances := w.new_note_balances }

/-! ## The Migration circuit (`circuit/migration.rs`) -/

namespace MigrationCircuit

/-- The witness record of `MigrationCircuit` (old balances over `N` assets,
new balances over `M`). -/
structure Witness (p N M : ℕ) where
  address : ZMod p
  nullifier : ZMod p
  utxo_root : ZMod p
  old_note_nullifier_hash : ZMod p
  old_note_blinding : ZMod p
  old_note_path : List (ZMod p × ZMod p)
  old_note_balances : Fin N → ZMod p
  new_note : ZMod p
  new_note_balances : Fin M → ZMod p

/-- `note_identifier`: the two-to-one hash of the address and the public old
blinding. -/
def identifier (p N M : ℕ) (h : Hasher p) (w : Witness p N M) : ZMod p :=
  h.tto w.address w.old_note_blinding

/-- The old note recomputed in-circuit. -/
def oldNote (p N M : ℕ) (h : Hasher p) (w : Witness p N M) : ZMod p :=
  h.crh [balanceRoot p N h w.old_note_balances, identifier p N M h w, w.nullifier]

/-- `is_nullifier_valid` of the Migration circuit. -/
abbrev nullifierHashValid (p N M : ℕ) (h : Hasher p) (w : Witness p N M) : Prop :=
  w.old_note_nullifier_hash = h.tto (oldNote p N M h w) w.nullifier

/-- `is_old_note_path_valid` of the Migration circuit. -/
abbrev oldNotePathValid (p N M : ℕ) (h : Hasher p) (w : Witness p N M) : Prop :=
  gadgetCheckMembership h.tto w.utxo_root (oldNote p N M h w) w.old_note_path

/-- The constraints emitted by `MigrationCircuit::generate_constraints` after
its parameter assertion: nullifier and membership validity (unconditionally,
no genesis disjunct); the new note built from the new balance root, the same
identifier and the same nullifier; the zip of old and new balances equal
componentwise; the new balances past index `N` all zero. -/
def constraints (p N M : ℕ) (h : Hasher p) (w : Witness p N M) : Prop :=
  (nullifierHashValid p N M h w ∧ oldNotePathValid p N M h w) ∧
  w.new_note = h.crh [balanceRoot p M h w.new_note_balances, identifier p N M h w, w.nullifier] ∧
  (∀ pr ∈ (List.ofFn w.old_note_balances).zip (List.ofFn w.new_note_balances), pr.1 = pr.2) ∧
  (∀ x ∈ (List.ofFn w.new_note_balances).drop N, x = 0)

instance (p N M : ℕ) (h : Hasher p) (w : Witness p N M) :
    Decidable (constraints p N M h w) := by
  unfold constraints
  infer_instance

/-- `MigrationCircuit::generate_constraints` as a whole: the leading
`assert!(N_ASSETS < M_ASSETS)` aborts construction (no constraint is ever
added) unless `N < M`, in which case the constraint set is produced. -/
def generateConstraints (p N M : ℕ) (h : Hasher p) (w : Witness p N M) : Option Prop :=
  if N < M then some (constraints p N M h w) else none

/-- The constraint system of the Migration circuit was constructed and is
satisfied by the assigned values. -/
def satisfied (p N M : ℕ) (h : Hasher p) (w : Witness p N M) : Prop :=
  ∃ C, generateConstraints p N M h w = some C ∧ C

end MigrationCircuit

/-! ## Constructed witnesses and concrete instances used by the theorems -/

/-- A "left spine" membership path of the given depth for leaf `x`: at every
level the running value is stored as the left element (sibling `0`). -/
def spineList (p : ℕ) (h2 : ZMod p → ZMod p → ZMod p) (x : ZMod p) :
    ℕ → List (ZMod p × ZMod p)
  | 0 => []
  | k + 1 => (x, 0) :: spineList p h2 (h2 x 0) k

/-- The root reached by replaying a left-spine path of the given depth. -/
def spineRoot (p : ℕ) (h2 : ZMod p → ZMod p → ZMod p) (x : ZMod p) : ℕ → ZMod p
  | 0 => x
  | k + 1 => spineRoot p h2 (h2 x 0) k

/-- A genesis-branch Main witness: all old balances zero, the other fields
honestly derived from the diff balances, and the public old-note nullifier
hash, identifier, UTXO root and path left free. -/
def MainCircuit.genesisWitness (p n : ℕ) (h : Hasher p)
    (nh ident utxo addr nullifier nb : ZMod p) (diffs : Fin n → ZMod p)
    (path : List (ZMod p × ZMod p)) : MainCircuit.Witness p n :=
  { address := addr
    nullifier := nullifier
    utxo_root := utxo
    diff_balance_root := balanceRoot p n h diffs
    diff_balances := diffs
    old_note_nullifier_hash := nh
    old_note_identifier := ident
    old_note_path := path
    old_note_balances := fun _ => 0
    new_note := h.crh [balanceRoot p n h diffs, h.tto addr nb, nullifier]
    new_note_blinding := nb
    new_note_balances := diffs }

/-- A fully honest Main witness with arbitrary old balances and diffs: every
intermediate hash (diff root, old root, old note, nullifier hash, new root,
identifier, new note) is derived, the old note's membership path is a
depth-`d` left spine and the UTXO root its replayed root. -/
def MainCircuit.conservationWitness (p n d : ℕ) (h : Hasher p)
    (addr nullifier ident nb : ZMod p) (olds diffs : Fin n → ZMod p) :
    MainCircuit.Witness p n :=
  { address := addr
    nullifier := nullifier
    utxo_root := spineRoot p h.tto (h.crh [balanceRoot p n h olds, ident, nullifier]) d
    diff_balance_root := balanceRoot p n h diffs
    diff_balances := diffs
    old_note_nullifier_hash := h.tto (h.crh [balanceRoot p n h olds, ident, nullifier]) nullifier
    old_note_identifier := ident
    old_note_path := spineList p h.tto (h.crh [balanceRoot p n h olds, ident, nullifier]) d
    old_note_balances := olds
    new_note := h.crh [balanceRoot p n h (fun i => olds i + diffs i), h.tto addr nb, nullifier]
    new_note_blinding := nb
    new_note_balances := fun i => olds i + diffs i }

/-- The same witness with one new balance changed by 1 and everything else
fixed. -/
def MainCircuit.bumpBalance (p n : ℕ) (w : MainCircuit.Witness p n) (j : Fin n) :
    MainCircuit.Witness p n :=
  { w with new_note_balances := Function.update w.new_note_balances j (w.new_note_balances j + 1) }

/-- A concrete hasher over `ZMod 11`. -/
def toyHasher : Hasher 11 :=
  { crh := fun l => l.foldl (fun a x => 3 * a + x + 5) 1
    tto := fun a b => a + 2 * b + 7 }

/-- A concrete hasher over `ZMod 11` whose two-to-one hash is not surjective
in its second argument at first argument `0`. -/
def squareHasher : Hasher 11 :=
  { crh := fun l => l.foldl (fun a x => 3 * a + x + 5) 1
    tto := fun a b => a + b * b }

/-- A genesis-branch Main witness over `ZMod 11` whose public old-note
nullifier hash is `1` rather than the zero sentinel. -/
def mainGenesisNonzeroNullifierHash : MainCircuit.Witness 11 1 :=
  MainCircuit.genesisWitness 11 1 toyHasher 1 0 0 0 0 0 ![1] [(0, 0)]

/-- A satisfying non-genesis Main witness over `ZMod 11` (for `squareHasher`)
whose public old-note identifier `2` is not the two-to-one hash of the
address `0` with any blinding at all. -/
def mainForeignIdentifierWitness : MainCircuit.Witness 11 1 :=
  { address := 0
    nullifier := 0
    utxo_root := squareHasher.tto (squareHasher.crh [squareHasher.crh [1], 2, 0]) 0
    diff_balance_root := squareHasher.crh [0]
    diff_balances := ![0]
    old_note_nullifier_hash := squareHasher.tto (squareHasher.crh [squareHasher.crh [1], 2, 0]) 0
    old_note_identifier := 2
    old_note_path := [(squareHasher.crh [squareHasher.crh [1], 2, 0], 0)]
    old_note_balances := ![1]
    new_note := squareHasher.crh [squareHasher.crh [1], squareHasher.tto 0 0, 0]
    new_note_blinding := 0
    new_note_balances := ![1] }

/-- A Spend witness over `ZMod 11` relying on its genesis disjunct: zero
nullifier hash, zero-balance root, and an invalid path/root pair. -/
def spendZeroSentinelWitness : SpendCircuit.Witness 11 :=
  { nullifier := 0
    utxo_root := 5
    old_note_nullifier_hash := 0
    old_note_identifier := 0
    old_note_balance_root := toyHasher.crh [0]
    old_note_path := [(0, 0)] }

/-- A Settle witness over `ZMod 11` relying on its genesis disjunct: zero
nullifier hash and all-zero old balances. -/
def settleZeroSentinelWitness : SettleCircuit.Witness 11 1 :=
  { address := 0
    nullifier := 0
    aux := 0
    diff_balance_root := toyHasher.crh [1]
    diff_balances := ![1]
    old_note_nullifier_hash := 0
    old_note_identifier := 0
    old_note_balances := ![0]
    new_note := toyHasher.crh [toyHasher.crh [1], toyHasher.tto 0 0, 0]
    new_note_blinding := 0
    new_note_balances := ![1] }

/-- The all-zero Main witness over `ZMod 11`, one asset, empty path. -/
def mainZeroWitness : MainCircuit.Witness 11 1 :=
  { address := 0
    nullifier := 0
    utxo_root := 0
    diff_balance_root := 0
    diff_balances := ![0]
    old_note_nullifier_hash := 0
    old_note_identifier := 0
    old_note_path := []
    old_note_balances := ![0]
    new_note := 0
    new_note_blinding := 0
    new_note_balances := ![0] }

/-- The BN254 scalar-field modulus (the `Fr` of the crate's
`MainCircuitBn254`). -/
def bn254r : ℕ :=
  21888242871839275222246405745257275088548364400416034343698204186575808495617

/-- The witness of the crate's `cannot_withdraw_empty` test over the BN254
scalar field, for an arbitrary hasher: `N_ASSETS = 3`, all old-note data
zero/empty, `diff_balances = [-100, 0, 0]`, new balances and new note derived
accordingly. -/
def MainCircuit.withdrawEmptyWitness (h : Hasher bn254r)
    (addr nullifier nb utxo : ZMod bn254r) (path : List (ZMod bn254r × ZMod bn254r)) :
    MainCircuit.Witness bn254r 3 :=
  { address := addr
    nullifier := nullifier
    utxo_root := utxo
    diff_balance_root := balanceRoot bn254r 3 h ![-100, 0, 0]
    diff_balances := ![-100, 0, 0]
    old_note_nullifier_hash := 0
    old_note_identifier := 0
    old_note_path := path
    old_note_balances := ![0, 0, 0]
    new_note := h.crh [balanceRoot bn254r 3 h ![-100, 0, 0], h.tto addr nb, nullifier]
    new_note_blinding := nb
    new_note_balances := ![-100, 0, 0] }

/-- A two-to-one hash over `ZMod 11` used for concrete trees. -/
def treeHashA : ZMod 11 → ZMod 11 → ZMod 11 := fun a b => a + 2 * b

/-- A two-to-one hash over `ZMod 11` used for concrete trees. -/
def treeHashB : ZMod 11 → ZMod 11 → ZMod 11 := fun a b => a + 7 * b

/-- A depth-2 tree with the single leaf `3` inserted at index 1 (a right
child). -/
def rightChildTree : SparseMerkleTree 11 :=
  (SparseMerkleTree.emptyTree 11 2 treeHashA 0).insertBatch 2 treeHashA [(1, 3)]

/-- A depth-1 tree with the equal leaves `5` inserted at indices 0 and 1. -/
def twinLeafTree : SparseMerkleTree 11 :=
  (SparseMerkleTree.emptyTree 11 1 treeHashB 0).insertBatch 1 treeHashB [(0, 5), (1, 5)]

/-- A satisfying Migration witness over `ZMod 11` with `N = 1`, `M = 2`:
old balances `[4]`, new balances `[4, 0]`, honest hashes, left-spine path of
depth 1. -/
def migrationSmallWitness : MigrationCircuit.Witness 11 1 2 :=
  { address := 0
    nullifier := 0
    utxo_root := spineRoot 11 toyHasher.tto
      (toyHasher.crh [toyHasher.crh [4], toyHasher.tto 0 0, 0]) 1
    old_note_nullifier_hash := toyHasher.tto
      (toyHasher.crh [toyHasher.crh [4], toyHasher.tto 0 0, 0]) 0
    old_note_blinding := 0
    old_note_path := spineList 11 toyHasher.tto
      (toyHasher.crh [toyHasher.crh [4], toyHasher.tto 0 0, 0]) 1
    old_note_balances := ![4]
    new_note := toyHasher.crh [toyHasher.crh [4, 0], toyHasher.tto 0 0, 0]
    new_note_balances := ![4, 0] }

/-- An all-zero Migration witness over `ZMod 11` with `N = M = 3` (an invalid
parameterization). -/
def migrationBadParamsWitness : MigrationCircuit.Witness 11 3 3 :=
  { address := 0
    nullifier := 0
    utxo_root := 0
    old_note_nullifier_hash := 0
    old_note_blinding := 0
    old_note_path := []
    old_note_balances := ![0, 0, 0]
    new_note := 0
    new_note_balances := ![0, 0, 0] }

/-! ## Helper lemmas -/

theorem rootHashGadget_spine (p : ℕ) (h2 : ZMod p → ZMod p → ZMod p) (x : ZMod p) :
    ∀ k, rootHashGadget h2 x (spineList p h2 x k) = spineRoot p h2 x k := by
  intro k
  induction k generalizing x with
  | zero => rfl
  | succ k ih =>
    simp only [spineList, rootHashGadget, List.foldl_cons, if_pos rfl, spineRoot]
    exact ih (h2 x 0)

theorem filter_input_of_witness_map (p : ℕ) (l : List (ZMod p)) :
    (l.map fun v => ((AllocMode.witnessVar : AllocMode), v)).filter
      (fun a => a.1 = AllocMode.inputVar) = [] := by
  induction l with
  | nil => rfl
  | cons x l ih => simpa using ih

theorem filter_input_of_witness_ofFn (p n : ℕ) (f : Fin n → ZMod p) :
    (List.ofFn fun i => ((AllocMode.witnessVar : AllocMode), f i)).filter
      (fun a => a.1 = AllocMode.inputVar) = [] := by
  rw [List.filter_eq_nil_iff]
  intro a ha
  obtain ⟨i, rfl⟩ := Set.mem_range.mp ((List.mem_ofFn _ _).mp ha)
  simp

theorem filter_input_of_path_alloc (p : ℕ) (l : List (ZMod p × ZMod p)) :
    (l.flatMap fun pr => [((AllocMode.witnessVar : AllocMode), pr.1),
        ((AllocMode.witnessVar : AllocMode), pr.2)]).filter
      (fun a => a.1 = AllocMode.inputVar) = [] := by
  induction l with
  | nil => rfl
  | cons x l ih => simpa using ih

/-! ## Node-index geometry -/

theorem nodeParent_childL (j : ℕ) : nodeParent (2 * j + 1) = j := by
  unfold nodeParent
  omega

theorem nodeParent_childR (j : ℕ) : nodeParent (2 * j + 2) = j := by
  unfold nodeParent
  omega

theorem isDepth_zero_iff (j : ℕ) : IsDepth 0 j ↔ j = 0 := by
  unfold IsDepth
  norm_num

theorem isDepth_at_zero (d : ℕ) (h : IsDepth d 0) : d = 0 := by
  rcases h with ⟨h1, _⟩
  by_contra hne
  have h2 : 2 ^ 1 ≤ 2 ^ d := Nat.pow_le_pow_right (by norm_num) (by omega)
  simp only [pow_one] at h2
  omega

theorem isDepth_child (d j : ℕ) (h : IsDepth d j) :
    IsDepth (d + 1) (2 * j + 1) ∧ IsDepth (d + 1) (2 * j + 2) := by
  rcases h with ⟨h1, h2⟩
  have e1 : 2 ^ (d + 1) = 2 * 2 ^ d := by rw [pow_succ]; ring
  have e2 : 2 ^ (d + 2) = 4 * 2 ^ d := by rw [pow_succ, pow_succ]; ring
  have hp : 1 ≤ 2 ^ d := Nat.one_le_two_pow
  unfold IsDepth
  omega

theorem isDepth_parent (d j : ℕ) (h : IsDepth (d + 1) j) :
    IsDepth d (nodeParent j) ∧ (j = 2 * nodeParent j + 1 ∨ j = 2 * nodeParent j + 2) ∧ 0 < j := by
  rcases h with ⟨h1, h2⟩
  have e1 : 2 ^ (d + 1) = 2 * 2 ^ d := by rw [pow_succ]; ring
  have e2 : 2 ^ (d + 2) = 4 * 2 ^ d := by rw [pow_succ, pow_succ]; ring
  have hp : 1 ≤ 2 ^ d := Nat.one_le_two_pow
  unfold IsDepth nodeParent
  omega

theorem isDepth_unique (d e j : ℕ) (hd : IsDepth d j) (he : IsDepth e j) : d = e := by
  rcases hd with ⟨hd1, hd2⟩
  rcases he with ⟨he1, he2⟩
  by_contra hne
  rcases Nat.lt_or_ge d e with hlt | hge
  · have : 2 ^ (d + 1) ≤ 2 ^ e := Nat.pow_le_pow_right (by norm_num) (by omega)
    omega
  · have hlt : e < d := by omega
    have : 2 ^ (e + 1) ≤ 2 ^ d := Nat.pow_le_pow_right (by norm_num) (by omega)
    omega

theorem isDepth_lt_bound (N d j : ℕ) (hd : IsDepth d j) (hdN : d ≤ N) : j < 2 ^ (N + 1) - 1 := by
  rcases hd with ⟨_, h2⟩
  have : 2 ^ (d + 1) ≤ 2 ^ (N + 1) := Nat.pow_le_pow_right (by norm_num) (by omega)
  omega

theorem parentIter_zero (m : ℕ) : parentIter m 0 = 0 := by
  induction m with
  | zero => rfl
  | succ m ih =>
    show parentIter m (nodeParent 0) = 0
    have : nodeParent 0 = 0 := rfl
    rw [this, ih]

theorem parentIter_of_depth (d j : ℕ) (h : IsDepth d j) : parentIter d j = 0 := by
  induction d generalizing j with
  | zero => exact (isDepth_zero_iff j).mp h
  | succ d ih =>
    show parentIter d (nodeParent j) = 0
    exact ih _ (isDepth_parent d j h).1

theorem not_dirty_nil (a : ℕ) : ¬ dirty [] a := by
  rintro ⟨i, hi, _⟩
  simp at hi

theorem dirty_of_mem (idxs : List ℕ) (i : ℕ) (h : i ∈ idxs) : dirty idxs i :=
  ⟨i, h, 0, rfl⟩

theorem dirty_shift (idxs : List ℕ) (a : ℕ) (h : dirty idxs a) :
    a ∈ idxs ∨ dirty (idxs.map nodeParent) a := by
  rcases h with ⟨i, hi, m, hm⟩
  cases m with
  | zero => exact Or.inl (hm ▸ hi)
  | succ m => exact Or.inr ⟨nodeParent i, List.mem_map_of_mem _ hi, m, hm⟩

theorem dirty_all_zero (idxs : List ℕ) (a : ℕ) (hz : ∀ i ∈ idxs, i = 0) (h : dirty idxs a) :
    a = 0 := by
  rcases h with ⟨i, hi, m, hm⟩
  rw [hz i hi] at hm
  rw [parentIter_zero] at hm
  omega

theorem dirty_dedup (l : List ℕ) (a : ℕ) : dirty l.dedup a ↔ dirty l a := by
  unfold dirty
  constructor <;> rintro ⟨i, hi, m, hm⟩ <;>
    exact ⟨i, by simpa [List.mem_dedup] using hi, m, hm⟩

/-! ## Characterization of one level of `insert_batch` -/

theorem put_self (p : ℕ) (t : ℕ → Option (ZMod p)) (i : ℕ) (v : ZMod p) :
    put t i v i = some v := by
  simp [put]

theorem put_ne (p : ℕ) (t : ℕ → Option (ZMod p)) (i j : ℕ) (v : ZMod p) (h : j ≠ i) :
    put t i v j = t j := by
  simp [put, h]

theorem getOr_put_ne (p : ℕ) (t : ℕ → Option (ZMod p)) (i j : ℕ) (v e : ZMod p) (h : j ≠ i) :
    getOr (put t i v) j e = getOr t j e := by
  simp [getOr, put, h]

theorem processLevelGo_not_mem (p : ℕ) (h2 : ZMod p → ZMod p → ZMod p) (e : ZMod p) :
    ∀ (idxs : List ℕ) (t : ℕ → Option (ZMod p)) (j : ℕ), j ∉ idxs →
      (processLevelGo h2 e t idxs).1 j = t j := by
  intro idxs
  induction idxs with
  | nil => intro t j _; rfl
  | cons i rest ih =>
    intro t j hj
    have hji : j ≠ i := fun h => hj (h ▸ List.mem_cons_self i rest)
    have hjr : j ∉ rest := fun h => hj (List.mem_cons_of_mem i h)
    by_cases hi0 : i = 0
    · simp only [processLevelGo, hi0, if_pos rfl]
      exact put_ne p t 0 j _ (hi0 ▸ hji)
    · simp only [processLevelGo, if_neg hi0]
      rw [ih _ j hjr, put_ne p t i j _ hji]

theorem processLevelGo_bound (p : ℕ) (h2 : ZMod p → ZMod p → ZMod p) (e : ZMod p) (B : ℕ) :
    ∀ (idxs : List ℕ) (t : ℕ → Option (ZMod p)), (∀ i ∈ idxs, i < B) →
      ∀ a ∈ (processLevelGo h2 e t idxs).2, a < B := by
  intro idxs
  induction idxs with
  | nil => intro t _ a ha; simp [processLevelGo] at ha
  | cons i rest ih =>
    intro t hlt a ha
    by_cases hi0 : i = 0
    · simp only [processLevelGo, hi0, if_pos rfl] at ha
      simp at ha
    · simp only [processLevelGo, if_neg hi0] at ha
      rcases List.mem_cons.mp ha with h | h
      · have hiB : i < B := hlt i (List.mem_cons_self i rest)
        omega
      · exact ih _ (fun x hx => hlt x (List.mem_cons_of_mem i hx)) a h

theorem processLevelGo_spec (p : ℕ) (h2 : ZMod p → ZMod p → ZMod p) (e : ZMod p) (D : ℕ)
    (hD : 0 < D) :
    ∀ (idxs : List ℕ) (t : ℕ → Option (ZMod p)), (∀ i ∈ idxs, IsDepth D i) →
      processLevelGo h2 e t idxs =
        (fun j => if j ∈ idxs then some (h2 (getOr t (2 * j + 1) e) (getOr t (2 * j + 2) e))
          else t j,
         idxs.map nodeParent) := by
  intro idxs
  induction idxs with
  | nil =>
    intro t _
    refine Prod.ext ?_ rfl
    funext j
    simp [processLevelGo]
  | cons i rest ih =>
    intro t hdep
    have hiD : IsDepth D i := hdep i (List.mem_cons_self i rest)
    have hi0 : i ≠ 0 := by
      intro h
      exact absurd (isDepth_at_zero D (h ▸ hiD)) (by omega)
    have hrest : ∀ x ∈ rest, IsDepth D x := fun x hx => hdep x (List.mem_cons_of_mem i hx)
    have hichild : ∀ j, IsDepth D j → 2 * j + 1 ≠ i ∧ 2 * j + 2 ≠ i := by
      intro j hj
      constructor
      · intro hc
        have := isDepth_unique (D + 1) D i (hc ▸ (isDepth_child D j hj).1) hiD
        omega
      · intro hc
        have := isDepth_unique (D + 1) D i (hc ▸ (isDepth_child D j hj).2) hiD
        omega
    simp only [processLevelGo, if_neg hi0]
    rw [ih _ hrest]
    refine Prod.ext ?_ ?_
    · funext j
      simp only
      by_cases hjr : j ∈ rest
      · rw [if_pos hjr, if_pos (List.mem_cons_of_mem i hjr)]
        have hj := hrest j hjr
        rw [getOr_put_ne p t i _ _ e (hichild j hj).1, getOr_put_ne p t i _ _ e (hichild j hj).2]
      · by_cases hji : j = i
        · subst hji
          rw [if_neg hjr, if_pos (List.mem_cons_self j rest), put_self]
        · rw [if_neg hjr, if_neg (by simp [hji, hjr]), put_ne p t i j _ hji]
    · simp [nodeParent]

theorem processLevelGo_spec_root (p : ℕ) (h2 : ZMod p → ZMod p → ZMod p) (e : ZMod p) :
    ∀ (idxs : List ℕ) (t : ℕ → Option (ZMod p)), (∀ i ∈ idxs, i = 0) →
      processLevelGo h2 e t idxs =
        (fun j => if j ∈ idxs then some (h2 (getOr t 1 e) (getOr t 2 e)) else t j, []) := by
  intro idxs t hz
  cases idxs with
  | nil =>
    refine Prod.ext ?_ rfl
    funext j
    simp [processLevelGo]
  | cons i rest =>
    have hi : i = 0 := hz i (List.mem_cons_self i rest)
    subst hi
    have hred : processLevelGo h2 e t (0 :: rest) =
        (put t 0 (h2 (getOr t (2 * 0 + 1) e) (getOr t (2 * 0 + 2) e)), []) := by
      simp [processLevelGo]
    rw [hred]
    refine Prod.ext ?_ rfl
    funext j
    simp only
    by_cases hj : j = 0
    · subst hj
      rw [if_pos (List.mem_cons_self 0 rest)]
      norm_num [put_self]
    · rw [put_ne p t 0 j _ hj, if_neg ?_]
      intro hmem
      rcases List.mem_cons.mp hmem with h | h
      · exact hj h
      · exact hj (hz j (List.mem_cons_of_mem 0 h))

/-! ## The level-loop invariant is preserved -/

theorem loopInv_step (p N : ℕ) (h2 : ZMod p → ZMod p → ZMod p) (e : ℕ → ZMod p) (k : ℕ)
    (t : ℕ → Option (ZMod p)) (idxs : List ℕ) (hInv : LoopInv p N h2 e k t idxs) :
    LoopInv p N h2 e (k + 1) (processLevelGo h2 (e k) t idxs).1
      ((processLevelGo h2 (e k) t idxs).2.dedup) := by
  obtain ⟨ha, hstore⟩ := hInv
  cases idxs with
  | nil =>
    show LoopInv p N h2 e (k + 1) t []
    refine ⟨by simp, fun j v hj => ?_⟩
    obtain ⟨h1, hpar, hcor⟩ := hstore j v hj
    refine ⟨h1, fun hj0 => ?_, fun d hd hdN => ?_⟩
    · rcases hpar hj0 with hs | hdd
      · exact Or.inl hs
      · exact absurd hdd (not_dirty_nil _)
    · rcases hcor d hd hdN with hc | hdd
      · exact Or.inl hc
      · exact absurd hdd (not_dirty_nil _)
  | cons i0 rest =>
    have hkN : k < N := (ha i0 (List.mem_cons_self i0 rest)).1
    by_cases hD : 0 < N - 1 - k
    -- inner levels: the pending indices sit strictly below the root
    · have hdepAll : ∀ i ∈ i0 :: rest, IsDepth (N - 1 - k) i := fun i hi => (ha i hi).2
      rw [processLevelGo_spec p h2 (e k) (N - 1 - k) hD (i0 :: rest) t hdepAll]
      set idxs := i0 :: rest with hidxs
      set v1 := fun j => h2 (getOr t (2 * j + 1) (e k)) (getOr t (2 * j + 2) (e k)) with hv1
      set t1 := fun j => if j ∈ idxs then some (v1 j) else t j with ht1
      show LoopInv p N h2 e (k + 1) t1 ((idxs.map nodeParent).dedup)
      have hmono : ∀ a, (t a).isSome → (t1 a).isSome := by
        intro a hs
        by_cases hai : a ∈ idxs
        · simp [ht1, hai]
        · simpa [ht1, hai] using hs
      have hchild_not : ∀ j, IsDepth (N - 1 - k) j →
          (2 * j + 1) ∉ idxs ∧ (2 * j + 2) ∉ idxs := by
        intro j hj
        constructor
        · intro hc
          have := isDepth_unique (N - 1 - k + 1) (N - 1 - k) _
            ((isDepth_child _ j hj).1) (hdepAll _ hc)
          omega
        · intro hc
          have := isDepth_unique (N - 1 - k + 1) (N - 1 - k) _
            ((isDepth_child _ j hj).2) (hdepAll _ hc)
          omega
      refine ⟨?_, fun j v hjv => ?_⟩
      · intro i hi
        obtain ⟨i1, hi1, rfl⟩ := List.mem_map.mp (List.mem_dedup.mp hi)
        have hdi1 : IsDepth (N - 1 - k - 1 + 1) i1 := by
          have := hdepAll i1 hi1
          have harith : N - 1 - k - 1 + 1 = N - 1 - k := by omega
          rwa [harith]
        refine ⟨by omega, ?_⟩
        have harith2 : N - 1 - (k + 1) = N - 1 - k - 1 := by omega
        rw [harith2]
        exact (isDepth_parent _ i1 hdi1).1
      · by_cases hj : j ∈ idxs
        · have hjD : IsDepth (N - 1 - k) j := hdepAll j hj
          have hveq : v = v1 j := by
            have : t1 j = some (v1 j) := by simp [ht1, hj]
            rw [hjv] at this
            exact Option.some.inj this
          refine ⟨isDepth_lt_bound N (N - 1 - k) j hjD (by omega), fun hj0 => ?_,
            fun d hd hdN => ?_⟩
          · exact Or.inr (dirty_of_mem _ _
              (List.mem_dedup.mpr (List.mem_map_of_mem nodeParent hj)))
          · left
            have hdD : d = N - 1 - k := isDepth_unique d (N - 1 - k) j hd hjD
            have harith : N - d - 1 = k := by omega
            rw [harith, hveq, hv1]
            have hc1 := (hchild_not j hjD).1
            have hc2 := (hchild_not j hjD).2
            simp only [ht1]
            rw [show getOr (fun j => if j ∈ idxs then some (v1 j) else t j) (2 * j + 1) (e k)
                = getOr t (2 * j + 1) (e k) by simp [getOr, hc1],
              show getOr (fun j => if j ∈ idxs then some (v1 j) else t j) (2 * j + 2) (e k)
                = getOr t (2 * j + 2) (e k) by simp [getOr, hc2]]
        · have hjt : t j = some v := by
            have : t1 j = t j := by simp [ht1, hj]
            rw [← this, hjv]
          obtain ⟨h1, hpar, hcor⟩ := hstore j v hjt
          refine ⟨h1, fun hj0 => ?_, fun d hd hdN => ?_⟩
          · rcases hpar hj0 with hs | hdd
            · exact Or.inl (hmono _ hs)
            · rcases dirty_shift idxs _ hdd with hmem | hdd2
              · exact Or.inl (by simp [ht1, hmem])
              · exact Or.inr ((dirty_dedup _ _).mpr hdd2)
          · rcases hcor d hd hdN with hc | hdd
            · by_cases hcl : (2 * j + 1) ∈ idxs ∨ (2 * j + 2) ∈ idxs
              · right
                rcases hcl with hcl | hcl
                · have : j ∈ idxs.map nodeParent := by
                    have := List.mem_map_of_mem nodeParent hcl
                    rwa [nodeParent_childL j] at this
                  exact dirty_of_mem _ _ (List.mem_dedup.mpr this)
                · have : j ∈ idxs.map nodeParent := by
                    have := List.mem_map_of_mem nodeParent hcl
                    rwa [nodeParent_childR j] at this
                  exact dirty_of_mem _ _ (List.mem_dedup.mpr this)
              · left
                push_neg at hcl
                rw [hc]
                simp only [ht1]
                rw [show getOr (fun a => if a ∈ idxs then some (v1 a) else t a) (2 * j + 1)
                    (e (N - d - 1)) = getOr t (2 * j + 1) (e (N - d - 1)) by
                    simp [getOr, hcl.1],
                  show getOr (fun a => if a ∈ idxs then some (v1 a) else t a) (2 * j + 2)
                    (e (N - d - 1)) = getOr t (2 * j + 2) (e (N - d - 1)) by
                    simp [getOr, hcl.2]]
            · rcases dirty_shift idxs _ hdd with hmem | hdd2
              · exact absurd hmem hj
              · exact Or.inr ((dirty_dedup _ _).mpr hdd2)
    -- last level: the pending indices are the root itself
    · have hz : ∀ i ∈ i0 :: rest, i = 0 := by
        intro i hi
        have := (ha i hi).2
        have hd0 : N - 1 - k = 0 := by omega
        rw [hd0] at this
        exact (isDepth_zero_iff i).mp this
      rw [processLevelGo_spec_root p h2 (e k) (i0 :: rest) t hz]
      set idxs := i0 :: rest with hidxs
      set t1 := fun j => if j ∈ idxs then some (h2 (getOr t 1 (e k)) (getOr t 2 (e k))) else t j
        with ht1
      show LoopInv p N h2 e (k + 1) t1 List.nil.dedup
      have h00 : (0 : ℕ) ∈ idxs := by
        have := hz i0 (List.mem_cons_self i0 rest)
        rw [← this]
        exact List.mem_cons_self i0 rest
      refine ⟨by simp, fun j v hjv => ?_⟩
      by_cases hj : j ∈ idxs
      · have hj0 : j = 0 := hz j hj
        subst hj0
        have hveq : v = h2 (getOr t 1 (e k)) (getOr t 2 (e k)) := by
          have : t1 0 = some (h2 (getOr t 1 (e k)) (getOr t 2 (e k))) := by simp [ht1, hj]
          rw [hjv] at this
          exact Option.some.inj this
        have hpow : 1 ≤ 2 ^ (N + 1) - 1 := by
          have : 2 ^ 1 ≤ 2 ^ (N + 1) := Nat.pow_le_pow_right (by norm_num) (by omega)
          omega
        refine ⟨by omega, fun hcontra => by omega, fun d hd hdN => ?_⟩
        left
        have hd0 : d = 0 := isDepth_at_zero d hd
        subst hd0
        have harith : N - 0 - 1 = k := by omega
        rw [harith, hveq]
        have hc1 : (2 * 0 + 1) ∉ idxs := by
          intro hc
          have := hz _ hc
          omega
        have hc2 : (2 * 0 + 2) ∉ idxs := by
          intro hc
          have := hz _ hc
          omega
        simp only [ht1]
        rw [show getOr (fun a => if a ∈ idxs then some (h2 (getOr t 1 (e k)) (getOr t 2 (e k)))
            else t a) (2 * 0 + 1) (e k) = getOr t (2 * 0 + 1) (e k) by simp [getOr, hc1],
          show getOr (fun a => if a ∈ idxs then some (h2 (getOr t 1 (e k)) (getOr t 2 (e k)))
            else t a) (2 * 0 + 2) (e k) = getOr t (2 * 0 + 2) (e k) by simp [getOr, hc2]]
      · have hjt : t j = some v := by
          have : t1 j = t j := by simp [ht1, hj]
          rw [← this, hjv]
        obtain ⟨h1, hpar, hcor⟩ := hstore j v hjt
        refine ⟨h1, fun hjpos => ?_, fun d hd hdN => ?_⟩
        · rcases hpar hjpos with hs | hdd
          · left
            by_cases hmem : nodeParent j ∈ idxs
            · simp [ht1, hmem]
            · simpa [ht1, hmem] using hs
          · left
            have := dirty_all_zero idxs _ hz hdd
            rw [this]
            simp [ht1, h00]
        · rcases hcor d hd hdN with hc | hdd
          · left
            rw [hc]
            have hc1 : (2 * j + 1) ∉ idxs := by
              intro hcm
              have := hz _ hcm
              omega
            have hc2 : (2 * j + 2) ∉ idxs := by
              intro hcm
              have := hz _ hcm
              omega
            simp only [ht1]
            rw [show getOr (fun a => if a ∈ idxs then some (h2 (getOr t 1 (e k)) (getOr t 2 (e k)))
                else t a) (2 * j + 1) (e (N - d - 1)) = getOr t (2 * j + 1) (e (N - d - 1)) by
                simp [getOr, hc1],
              show getOr (fun a => if a ∈ idxs then some (h2 (getOr t 1 (e k)) (getOr t 2 (e k)))
                else t a) (2 * j + 2) (e (N - d - 1)) = getOr t (2 * j + 2) (e (N - d - 1)) by
                simp [getOr, hc2]]
          · have hj0 : j = 0 := dirty_all_zero idxs _ hz hdd
            exact absurd (hj0 ▸ h00) hj

/-! ## From the invariant to well-formedness of `insert_batch` results -/

theorem loopInv_final (p N : ℕ) (h2 : ZMod p → ZMod p → ZMod p) (e : ℕ → ZMod p)
    (t : ℕ → Option (ZMod p)) (idxs : List ℕ) (hInv : LoopInv p N h2 e N t idxs) :
    WFTree p N h2 e t := by
  obtain ⟨ha, hstore⟩ := hInv
  have hnil : idxs = [] := by
    cases idxs with
    | nil => rfl
    | cons i r =>
      have := (ha i (List.mem_cons_self i r)).1
      omega
  subst hnil
  intro j v hjv
  obtain ⟨h1, hpar, hcor⟩ := hstore j v hjv
  exact ⟨h1, fun h0 => (hpar h0).resolve_right (not_dirty_nil _),
    fun d hd hdN => (hcor d hd hdN).resolve_right (not_dirty_nil _)⟩

theorem runLevelsGo_wf (p N : ℕ) (h2 : ZMod p → ZMod p → ZMod p) (e : ℕ → ZMod p) :
    ∀ (f k : ℕ) (t : ℕ → Option (ZMod p)) (idxs : List ℕ), k + f = N →
      LoopInv p N h2 e k t idxs → WFTree p N h2 e (runLevelsGo h2 e f k t idxs) := by
  intro f
  induction f with
  | zero =>
    intro k t idxs hk hInv
    have hkN : k = N := by omega
    exact loopInv_final p N h2 e t idxs (hkN ▸ hInv)
  | succ f ih =>
    intro k t idxs hk hInv
    rw [show runLevelsGo h2 e (f + 1) k t idxs = runLevelsGo h2 e f (k + 1)
      (processLevelGo h2 (e k) t idxs).1 (processLevelGo h2 (e k) t idxs).2.dedup from rfl]
    exact ih (k + 1) _ _ (by omega) (loopInv_step p N h2 e k t idxs hInv)

theorem runLevelsGo_preserve (p : ℕ) (h2 : ZMod p → ZMod p → ZMod p) (e : ℕ → ZMod p) (B : ℕ) :
    ∀ (f lvl : ℕ) (t : ℕ → Option (ZMod p)) (idxs : List ℕ), (∀ i ∈ idxs, i < B) →
      ∀ j, B ≤ j → runLevelsGo h2 e f lvl t idxs j = t j := by
  intro f
  induction f with
  | zero => intro lvl t idxs _ j _; rfl
  | succ f ih =>
    intro lvl t idxs hB j hj
    rw [show runLevelsGo h2 e (f + 1) lvl t idxs = runLevelsGo h2 e f (lvl + 1)
      (processLevelGo h2 (e lvl) t idxs).1 (processLevelGo h2 (e lvl) t idxs).2.dedup from rfl]
    rw [ih (lvl + 1) _ _ (fun i hi =>
      processLevelGo_bound p h2 (e lvl) B idxs t hB i (List.mem_dedup.mp hi)) j hj]
    exact processLevelGo_not_mem p h2 (e lvl) idxs t j (fun hmem => by
      have := hB j hmem
      omega)

theorem foldPut_not_mem (p last : ℕ) :
    ∀ (leaves : List (ℕ × ZMod p)) (t : ℕ → Option (ZMod p)) (j : ℕ),
      (∀ iv ∈ leaves, last + iv.1 ≠ j) →
      leaves.foldl (fun t iv => put t (last + iv.1) iv.2) t j = t j := by
  intro leaves
  induction leaves with
  | nil => intro t j _; rfl
  | cons iv rest ih =>
    intro t j hne
    rw [List.foldl_cons, ih _ j (fun x hx => hne x (List.mem_cons_of_mem iv hx))]
    exact put_ne p t _ j _ (fun h => hne iv (List.mem_cons_self iv rest) h.symm)

theorem foldPut_isSome (p last : ℕ) :
    ∀ (leaves : List (ℕ × ZMod p)) (t : ℕ → Option (ZMod p)) (j : ℕ), (t j).isSome →
      (leaves.foldl (fun t iv => put t (last + iv.1) iv.2) t j).isSome := by
  intro leaves
  induction leaves with
  | nil => intro t j h; exact h
  | cons iv rest ih =>
    intro t j h
    rw [List.foldl_cons]
    refine ih _ j ?_
    by_cases hj : j = last + iv.1
    · subst hj
      simp [put]
    · rwa [put_ne p t _ j _ hj]

theorem foldPut_mem (p last : ℕ) :
    ∀ (leaves : List (ℕ × ZMod p)) (t : ℕ → Option (ZMod p)) (iv : ℕ × ZMod p),
      iv ∈ leaves → (leaves.map Prod.fst).Nodup →
      leaves.foldl (fun t iv => put t (last + iv.1) iv.2) t (last + iv.1) = some iv.2 := by
  intro leaves
  induction leaves with
  | nil => intro t iv h _; simp at h
  | cons hd rest ih =>
    intro t iv hmem hnd
    have hnd2 : hd.1 ∉ rest.map Prod.fst ∧ (rest.map Prod.fst).Nodup := by
      rw [List.map_cons, List.nodup_cons] at hnd
      exact hnd
    rw [List.foldl_cons]
    rcases List.mem_cons.mp hmem with rfl | hmem2
    · rw [foldPut_not_mem p last rest _ (last + iv.1) ?_]
      · exact put_self p t _ _
      · intro jv hjv h
        have : jv.1 = iv.1 := by omega
        exact hnd2.1 (this ▸ List.mem_map_of_mem Prod.fst hjv)
    · exact ih _ iv hmem2 hnd2.2

theorem insertLeaves_inv (p N : ℕ) (h2 : ZMod p → ZMod p → ZMod p) (e : ℕ → ZMod p)
    (t : ℕ → Option (ZMod p)) (leaves : List (ℕ × ZMod p)) (hN : 0 < N)
    (hwf : WFTree p N h2 e t) (hkeys : ∀ iv ∈ leaves, iv.1 < 2 ^ N) :
    LoopInv p N h2 e 0
      (leaves.foldl (fun t iv => put t (2 ^ N - 1 + iv.1) iv.2) t)
      ((leaves.map fun iv => (2 ^ N - 1 + iv.1 - 1) / 2).dedup) := by
  have hpow : 2 ^ (N + 1) = 2 * 2 ^ N := by rw [pow_succ]; ring
  have hpow1 : 1 ≤ 2 ^ N := Nat.one_le_two_pow
  have hleafdepth : ∀ key, key < 2 ^ N → IsDepth N (2 ^ N - 1 + key) := by
    intro key hkey
    unfold IsDepth
    omega
  constructor
  · intro i hi
    obtain ⟨iv, hiv, rfl⟩ := List.mem_map.mp (List.mem_dedup.mp hi)
    have hld : IsDepth (N - 1 + 1) (2 ^ N - 1 + iv.1) := by
      have := hleafdepth iv.1 (hkeys iv hiv)
      have harith : N - 1 + 1 = N := by omega
      rwa [harith]
    refine ⟨hN, ?_⟩
    have harith2 : N - 1 - 0 = N - 1 := by omega
    rw [harith2]
    exact (isDepth_parent (N - 1) _ hld).1
  · intro j v hjv
    by_cases hjleaf : ∃ iv ∈ leaves, 2 ^ N - 1 + iv.1 = j
    · obtain ⟨iv, hiv, hkey⟩ := hjleaf
      have hjd : IsDepth N j := hkey ▸ hleafdepth iv.1 (hkeys iv hiv)
      refine ⟨?_, fun hj0 => ?_, fun d hd hdN => ?_⟩
      · rcases hjd with ⟨_, h2'⟩
        omega
      · refine Or.inr (dirty_of_mem _ _ (List.mem_dedup.mpr ?_))
        have hthis : (2 ^ N - 1 + iv.1 - 1) / 2 = nodeParent j := by
          rw [← hkey]
          rfl
        rw [← hthis]
        exact List.mem_map_of_mem _ hiv
      · have : d = N := isDepth_unique d N j hd hjd
        omega
    · push_neg at hjleaf
      have hjt : t j = some v := by
        rw [← foldPut_not_mem p (2 ^ N - 1) leaves t j hjleaf]
        exact hjv
      obtain ⟨h1, hpar, hcor⟩ := hwf j v hjt
      refine ⟨h1, fun hj0 => Or.inl (foldPut_isSome p _ leaves t _ (hpar hj0)),
        fun d hd hdN => ?_⟩
      have hcval := hcor d hd hdN
      by_cases hcl : (∃ iv ∈ leaves, 2 ^ N - 1 + iv.1 = 2 * j + 1) ∨
          (∃ iv ∈ leaves, 2 ^ N - 1 + iv.1 = 2 * j + 2)
      · right
        rcases hcl with ⟨iv, hiv, hc⟩ | ⟨iv, hiv, hc⟩
        · refine dirty_of_mem _ _ (List.mem_dedup.mpr ?_)
          have hpj : (2 ^ N - 1 + iv.1 - 1) / 2 = j := by
            have := nodeParent_childL j
            unfold nodeParent at this
            omega
          have := List.mem_map_of_mem (fun iv : ℕ × ZMod p => (2 ^ N - 1 + iv.1 - 1) / 2) hiv
          simpa [hpj] using this
        · refine dirty_of_mem _ _ (List.mem_dedup.mpr ?_)
          have hpj : (2 ^ N - 1 + iv.1 - 1) / 2 = j := by
            have := nodeParent_childR j
            unfold nodeParent at this
            omega
          have := List.mem_map_of_mem (fun iv : ℕ × ZMod p => (2 ^ N - 1 + iv.1 - 1) / 2) hiv
          simpa [hpj] using this
      · left
        push_neg at hcl
        rw [hcval]
        unfold getOr
        rw [foldPut_not_mem p (2 ^ N - 1) leaves t _ hcl.1,
          foldPut_not_mem p (2 ^ N - 1) leaves t _ hcl.2]

/-! ## Well-formedness and leaf values of built trees -/

theorem validBatch_nodup (p N : ℕ) (b : List (ℕ × ZMod p)) (hb : ValidBatch N b) :
    (b.map Prod.fst).Nodup := by
  have := List.chain'_iff_pairwise.mp hb.1
  exact this.imp Nat.ne_of_lt

theorem insertBatch_wf (p N : ℕ) (h2 : ZMod p → ZMod p → ZMod p) (s : SparseMerkleTree p)
    (b : List (ℕ × ZMod p)) (hN : 0 < N) (hwf : WFTree p N h2 (eAt s) s.tree)
    (hb : ValidBatch N b) :
    WFTree p N h2 (eAt (s.insertBatch N h2 b)) (s.insertBatch N h2 b).tree := by
  show WFTree p N h2 (eAt s) (runLevelsGo h2 (eAt s) N 0
    (b.foldl (fun t iv => put t (2 ^ N - 1 + iv.1) iv.2) s.tree)
    ((b.map fun iv => (2 ^ N - 1 + iv.1 - 1) / 2).dedup))
  exact runLevelsGo_wf p N h2 (eAt s) N 0 _ _ (by omega)
    (insertLeaves_inv p N h2 (eAt s) s.tree b hN hwf (fun iv hiv => hb.2 iv hiv))

theorem insertBatch_parent_bound (p N : ℕ) (b : List (ℕ × ZMod p)) (hN : 0 < N)
    (hkeys : ∀ iv ∈ b, iv.1 < 2 ^ N) :
    ∀ i ∈ (b.map fun iv => (2 ^ N - 1 + iv.1 - 1) / 2).dedup, i < 2 ^ N - 1 := by
  intro i hi
  obtain ⟨iv, hiv, rfl⟩ := List.mem_map.mp (List.mem_dedup.mp hi)
  have h1 : 2 ^ 1 ≤ 2 ^ N := Nat.pow_le_pow_right (by norm_num) (by omega)
  have h2 : iv.1 < 2 ^ N := hkeys iv hiv
  simp only [pow_one] at h1
  omega

theorem insertBatch_leaf (p N : ℕ) (h2 : ZMod p → ZMod p → ZMod p) (s : SparseMerkleTree p)
    (b : List (ℕ × ZMod p)) (hN : 0 < N) (hb : ValidBatch N b) (iv : ℕ × ZMod p) (hiv : iv ∈ b) :
    (s.insertBatch N h2 b).tree (2 ^ N - 1 + iv.1) = some iv.2 := by
  show runLevelsGo h2 (eAt s) N 0
    (b.foldl (fun t iv => put t (2 ^ N - 1 + iv.1) iv.2) s.tree)
    ((b.map fun iv => (2 ^ N - 1 + iv.1 - 1) / 2).dedup) (2 ^ N - 1 + iv.1) = some iv.2
  rw [runLevelsGo_preserve p h2 (eAt s) (2 ^ N - 1) N 0 _ _
    (insertBatch_parent_bound p N b hN (fun x hx => hb.2 x hx)) _ (by omega)]
  exact foldPut_mem p _ b s.tree iv hiv (validBatch_nodup p N b hb)

theorem insertBatch_leaf_keep (p N : ℕ) (h2 : ZMod p → ZMod p → ZMod p)
    (s : SparseMerkleTree p) (b : List (ℕ × ZMod p)) (hN : 0 < N) (hb : ValidBatch N b)
    (j : ℕ) (hj : 2 ^ N - 1 ≤ j) (hjb : ∀ iv ∈ b, 2 ^ N - 1 + iv.1 ≠ j) :
    (s.insertBatch N h2 b).tree j = s.tree j := by
  show runLevelsGo h2 (eAt s) N 0
    (b.foldl (fun t iv => put t (2 ^ N - 1 + iv.1) iv.2) s.tree)
    ((b.map fun iv => (2 ^ N - 1 + iv.1 - 1) / 2).dedup) j = s.tree j
  rw [runLevelsGo_preserve p h2 (eAt s) (2 ^ N - 1) N 0 _ _
    (insertBatch_parent_bound p N b hN (fun x hx => hb.2 x hx)) _ hj]
  exact foldPut_not_mem p _ b s.tree j hjb

theorem foldl_insertBatch_wf (p N : ℕ) (h2 : ZMod p → ZMod p → ZMod p) :
    ∀ (bs : List (List (ℕ × ZMod p))) (s0 : SparseMerkleTree p), 0 < N →
      (∀ b ∈ bs, ValidBatch N b) → WFTree p N h2 (eAt s0) s0.tree →
      (bs.foldl (fun acc b => acc.insertBatch N h2 b) s0).emptyHashes = s0.emptyHashes ∧
      WFTree p N h2 (eAt (bs.foldl (fun acc b => acc.insertBatch N h2 b) s0))
        (bs.foldl (fun acc b => acc.insertBatch N h2 b) s0).tree := by
  intro bs
  induction bs with
  | nil => intro s0 _ _ hwf; exact ⟨rfl, hwf⟩
  | cons b rest ih =>
    intro s0 hN hvalid hwf
    rw [List.foldl_cons]
    exact ih (s0.insertBatch N h2 b) hN
      (fun x hx => hvalid x (List.mem_cons_of_mem b hx))
      (insertBatch_wf p N h2 s0 b hN hwf (hvalid b (List.mem_cons_self b rest)))

theorem builtFrom_wf (p N : ℕ) (h2 : ZMod p → ZMod p → ZMod p) (e0 : ZMod p)
    (s : SparseMerkleTree p) (hN : 0 < N) (hb : BuiltFrom p N h2 e0 s) :
    WFTree p N h2 (eAt s) s.tree := by
  obtain ⟨bs, hvalid, rfl⟩ := hb
  exact (foldl_insertBatch_wf p N h2 bs (SparseMerkleTree.emptyTree p N h2 e0) hN hvalid
    (fun j v hjv => by simp [SparseMerkleTree.emptyTree] at hjv)).2

/-! ## Replaying a generated membership proof -/

theorem getOr_of_some (p : ℕ) (t : ℕ → Option (ZMod p)) (c : ℕ) (v e1 : ZMod p)
    (h : t c = some v) : getOr t c e1 = v := by
  rw [getOr, h]
  rfl

theorem wf_parent_chain (p N : ℕ) (h2 : ZMod p → ZMod p → ZMod p) (e : ℕ → ZMod p)
    (t : ℕ → Option (ZMod p)) (hwf : WFTree p N h2 e t) :
    ∀ (m j : ℕ), (t j).isSome → (t (parentIter m j)).isSome := by
  intro m
  induction m with
  | zero => intro j h; exact h
  | succ m ih =>
    intro j h
    show (t (parentIter m (nodeParent j))).isSome
    by_cases hj : j = 0
    · subst hj
      exact ih 0 h
    · obtain ⟨v, hv⟩ := Option.isSome_iff_exists.mp h
      exact ih _ ((hwf j v hv).2.1 (by omega))

theorem genProofGo_succ (p : ℕ) (t : ℕ → Option (ZMod p)) (e : ℕ → ZMod p) (f l c : ℕ) :
    genProofGo t e (f + 1) l c =
      (if c % 2 = 1 then (getOr t c (e l), getOr t (c + 1) (e l))
        else (getOr t (c - 1) (e l), getOr t c (e l))) ::
      genProofGo t e f (l + 1) ((c - 1) / 2) := by
  by_cases hm : c % 2 = 1 <;> simp [genProofGo, hm]

theorem replay_calcRoot (p N : ℕ) (h2 : ZMod p → ZMod p → ZMod p) (e : ℕ → ZMod p)
    (t : ℕ → Option (ZMod p)) (hwf : WFTree p N h2 e t) :
    ∀ (f l c : ℕ) (cv rv : ZMod p), l + f = N → IsDepth f c → t c = some cv →
      t 0 = some rv → calcRootGo h2 cv (genProofGo t e f l c) = .ok rv := by
  intro f
  induction f with
  | zero =>
    intro l c cv rv _ hcd hct hrt
    have hc0 : c = 0 := (isDepth_zero_iff c).mp hcd
    subst hc0
    rw [hct] at hrt
    rw [Option.some.inj hrt]
    rfl
  | succ f ih =>
    intro l c cv rv hl hcd hct hrt
    obtain ⟨hpd, hcc, hc0⟩ := isDepth_parent f c hcd
    have hpsome : (t (nodeParent c)).isSome := (hwf c cv hct).2.1 hc0
    obtain ⟨pv, hpv⟩ := Option.isSome_iff_exists.mp hpsome
    have hfN : f < N := by omega
    have hcorr := (hwf (nodeParent c) pv hpv).2.2 f hpd hfN
    have heidx : N - f - 1 = l := by omega
    rw [heidx] at hcorr
    have hnext : (c - 1) / 2 = nodeParent c := rfl
    have hrec := ih (l + 1) (nodeParent c) pv rv (by omega) hpd hpv hrt
    rw [genProofGo_succ, hnext]
    rcases hcc with hodd | heven
    · have hmod : c % 2 = 1 := by omega
      have hsib : c + 1 = 2 * nodeParent c + 2 := by omega
      have hself : c = 2 * nodeParent c + 1 := hodd
      rw [if_pos hmod, getOr_of_some p t c cv (e l) hct, hsib]
      have hh : h2 cv (getOr t (2 * nodeParent c + 2) (e l)) = pv := by
        rw [hcorr, ← hself, getOr_of_some p t c cv (e l) hct]
      simp only [calcRootGo, ne_eq, not_true_eq_false, false_and, if_false, hh]
      exact hrec
    · have hmod : ¬ c % 2 = 1 := by omega
      have hsib : c - 1 = 2 * nodeParent c + 1 := by omega
      have hself : c = 2 * nodeParent c + 2 := heven
      rw [if_neg hmod, getOr_of_some p t c cv (e l) hct, hsib]
      have hh : h2 (getOr t (2 * nodeParent c + 1) (e l)) cv = pv := by
        rw [hcorr, ← hself, getOr_of_some p t c cv (e l) hct]
      simp only [calcRootGo, ne_eq, not_true_eq_false, and_false, if_false, hh]
      exact hrec

theorem replay_getIndex (p N : ℕ) (h2 : ZMod p → ZMod p → ZMod p) (e : ℕ → ZMod p)
    (t : ℕ → Option (ZMod p)) (hwf : WFTree p N h2 e t) :
    ∀ (f l c : ℕ) (cv : ZMod p), l + f = N → IsDepth f c → t c = some cv →
      (∀ m, m < f → Nat.testBit (c + 1 - 2 ^ f) m = true →
        ((genProofGo t e f l c).getD m (0, 0)).1 ≠ ((genProofGo t e f l c).getD m (0, 0)).2) →
      ∀ acc two : ZMod p,
        getIndexGo h2 cv acc two (genProofGo t e f l c) =
          acc + two * ((c + 1 - 2 ^ f : ℕ) : ZMod p) := by
  intro f
  induction f with
  | zero =>
    intro l c cv _ hcd hct _ acc two
    have hc0 : c = 0 := (isDepth_zero_iff c).mp hcd
    subst hc0
    show acc = acc + two * ((0 + 1 - 2 ^ 0 : ℕ) : ZMod p)
    norm_num
  | succ f ih =>
    intro l c cv hl hcd hct hside acc two
    obtain ⟨hpd, hcc, hc0⟩ := isDepth_parent f c hcd
    have hpsome : (t (nodeParent c)).isSome := (hwf c cv hct).2.1 hc0
    obtain ⟨pv, hpv⟩ := Option.isSome_iff_exists.mp hpsome
    have hfN : f < N := by omega
    have hcorr := (hwf (nodeParent c) pv hpv).2.2 f hpd hfN
    have heidx : N - f - 1 = l := by omega
    rw [heidx] at hcorr
    have hnext : (c - 1) / 2 = nodeParent c := rfl
    have hclow : 2 ^ (f + 1) ≤ c + 1 := by
      rcases hcd with ⟨hle, _⟩
      omega
    have hplow : 2 ^ f ≤ nodeParent c + 1 := by
      rcases hpd with ⟨hle, _⟩
      omega
    have hpowsucc : 2 ^ (f + 1) = 2 * 2 ^ f := by rw [pow_succ]; ring
    have hsideshift : ∀ m, m < f → Nat.testBit (nodeParent c + 1 - 2 ^ f) m = true →
        ((genProofGo t e f (l + 1) (nodeParent c)).getD m (0, 0)).1 ≠
          ((genProofGo t e f (l + 1) (nodeParent c)).getD m (0, 0)).2 := by
      intro m hm hbit
      have hdiv : (c + 1 - 2 ^ (f + 1)) / 2 = nodeParent c + 1 - 2 ^ f := by
        unfold nodeParent
        omega
      have hbit2 : Nat.testBit (c + 1 - 2 ^ (f + 1)) (m + 1) = true := by
        rw [Nat.testBit_add_one, hdiv]
        exact hbit
      have := hside (m + 1) (by omega) hbit2
      rwa [genProofGo_succ, hnext, List.getD_cons_succ] at this
    rw [genProofGo_succ, hnext]
    rcases hcc with hodd | heven
    · -- left child: no bit contribution, relative index doubles from the parent
      have hmod : c % 2 = 1 := by omega
      have hpair : (if c % 2 = 1 then (getOr t c (e l), getOr t (c + 1) (e l))
          else (getOr t (c - 1) (e l), getOr t c (e l)))
          = (cv, getOr t (2 * nodeParent c + 2) (e l)) := by
        rw [if_pos hmod, getOr_of_some p t c cv (e l) hct,
          show c + 1 = 2 * nodeParent c + 2 from by omega]
      rw [hpair]
      have hstep : getIndexGo h2 cv acc two
          ((cv, getOr t (2 * nodeParent c + 2) (e l)) ::
            genProofGo t e f (l + 1) (nodeParent c))
          = getIndexGo h2 (h2 cv (getOr t (2 * nodeParent c + 2) (e l))) acc (two + two)
            (genProofGo t e f (l + 1) (nodeParent c)) := by
        simp [getIndexGo]
      rw [hstep]
      have hh : h2 cv (getOr t (2 * nodeParent c + 2) (e l)) = pv := by
        rw [hcorr, ← hodd, getOr_of_some p t c cv (e l) hct]
      rw [hh, ih (l + 1) (nodeParent c) pv (by omega) hpd hpv hsideshift acc (two + two)]
      have hrix : c + 1 - 2 ^ (f + 1) = 2 * (nodeParent c + 1 - 2 ^ f) := by
        unfold nodeParent
        omega
      rw [hrix]
      push_cast
      ring
    · -- right child: the current power of two is added to the index
      have hmod : ¬ c % 2 = 1 := by omega
      have hpair : (if c % 2 = 1 then (getOr t c (e l), getOr t (c + 1) (e l))
          else (getOr t (c - 1) (e l), getOr t c (e l)))
          = (getOr t (2 * nodeParent c + 1) (e l), cv) := by
        rw [if_neg hmod, getOr_of_some p t c cv (e l) hct,
          show c - 1 = 2 * nodeParent c + 1 from by omega]
      rw [hpair]
      have hne : ¬ cv = getOr t (2 * nodeParent c + 1) (e l) := by
        have hbit0 : Nat.testBit (c + 1 - 2 ^ (f + 1)) 0 = true := by
          rw [Nat.testBit_zero]
          simp only [decide_eq_true_eq]
          have hcev : c = 2 * nodeParent c + 2 := heven
          omega
        have hs0 := hside 0 (by omega) hbit0
        rw [genProofGo_succ, hnext, hpair, List.getD_cons_zero] at hs0
        exact fun hcv => hs0 (by rw [hcv])
      have hstep : getIndexGo h2 cv acc two
          ((getOr t (2 * nodeParent c + 1) (e l), cv) ::
            genProofGo t e f (l + 1) (nodeParent c))
          = getIndexGo h2 (h2 (getOr t (2 * nodeParent c + 1) (e l)) cv) (acc + two) (two + two)
            (genProofGo t e f (l + 1) (nodeParent c)) := by
        simp [getIndexGo, hne]
      rw [hstep]
      have hh : h2 (getOr t (2 * nodeParent c + 1) (e l)) cv = pv := by
        rw [hcorr, ← heven, getOr_of_some p t c cv (e l) hct]
      rw [hh, ih (l + 1) (nodeParent c) pv (by omega) hpd hpv hsideshift (acc + two) (two + two)]
      have hrix : c + 1 - 2 ^ (f + 1) = 2 * (nodeParent c + 1 - 2 ^ f) + 1 := by
        unfold nodeParent
        omega
      rw [hrix]
      push_cast
      ring

theorem calculateRoot_of_go (p : ℕ) (h2 : ZMod p → ZMod p → ZMod p) (l r : ZMod p)
    (rest : List (ZMod p × ZMod p)) (leaf rv : ZMod p) (hhead : leaf = l ∨ leaf = r)
    (hgo : calcRootGo h2 leaf ((l, r) :: rest) = .ok rv) :
    calculateRoot h2 ((l, r) :: rest) leaf = .ok rv := by
  show (if leaf ≠ l ∧ leaf ≠ r then Except.error MerkleError.invalidLeaf
    else calcRootGo h2 leaf ((l, r) :: rest)) = Except.ok rv
  rw [if_neg (by tauto)]
  exact hgo

theorem tree_calculateRoot (p N : ℕ) (h2 : ZMod p → ZMod p → ZMod p) (e : ℕ → ZMod p)
    (t : ℕ → Option (ZMod p)) (hwf : WFTree p N h2 e t) (hN : 0 < N) (i : ℕ) (hi : i < 2 ^ N)
    (leaf rv : ZMod p) (hleaf : t (i + 2 ^ N - 1) = some leaf) (hrv : t 0 = some rv) :
    calculateRoot h2 (genProofGo t e N 0 (i + 2 ^ N - 1)) leaf = .ok rv := by
  have hpow : 2 ^ (N + 1) = 2 * 2 ^ N := by rw [pow_succ]; ring
  have hpow1 : 1 ≤ 2 ^ N := Nat.one_le_two_pow
  have hdep : IsDepth N (i + 2 ^ N - 1) := by
    unfold IsDepth
    omega
  have hrep := replay_calcRoot p N h2 e t hwf N 0 _ leaf rv (by omega) hdep hleaf hrv
  cases N with
  | zero => omega
  | succ f =>
    have hlf : getOr t (i + 2 ^ (f + 1) - 1) (e 0) = leaf :=
      getOr_of_some p t _ leaf (e 0) hleaf
    rw [genProofGo_succ] at hrep ⊢
    by_cases hpar : (i + 2 ^ (f + 1) - 1) % 2 = 1
    · rw [if_pos hpar] at hrep ⊢
      exact calculateRoot_of_go p h2 _ _ _ leaf rv (Or.inl hlf.symm) hrep
    · rw [if_neg hpar] at hrep ⊢
      exact calculateRoot_of_go p h2 _ _ _ leaf rv (Or.inr hlf.symm) hrep

theorem tree_getIndex (p N : ℕ) (h2 : ZMod p → ZMod p → ZMod p) (e : ℕ → ZMod p)
    (t : ℕ → Option (ZMod p)) (hwf : WFTree p N h2 e t) (hN : 0 < N) (i : ℕ) (hi : i < 2 ^ N)
    (leaf rv : ZMod p) (hleaf : t (i + 2 ^ N - 1) = some leaf) (hrv : t 0 = some rv)
    (hside : ∀ m, m < N → Nat.testBit i m = true →
      ((genProofGo t e N 0 (i + 2 ^ N - 1)).getD m (0, 0)).1 ≠
        ((genProofGo t e N 0 (i + 2 ^ N - 1)).getD m (0, 0)).2) :
    getIndex h2 (genProofGo t e N 0 (i + 2 ^ N - 1)) rv leaf = .ok ((i : ℕ) : ZMod p) := by
  have hpow : 2 ^ (N + 1) = 2 * 2 ^ N := by rw [pow_succ]; ring
  have hpow1 : 1 ≤ 2 ^ N := Nat.one_le_two_pow
  have hdep : IsDepth N (i + 2 ^ N - 1) := by
    unfold IsDepth
    omega
  have hridx : i + 2 ^ N - 1 + 1 - 2 ^ N = i := by omega
  have hgo := replay_getIndex p N h2 e t hwf N 0 _ leaf (by omega) hdep hleaf
    (by rw [hridx]; exact hside) 0 1
  rw [hridx] at hgo
  have hcalc := tree_calculateRoot p N h2 e t hwf hN i hi leaf rv hleaf hrv
  unfold getIndex
  rw [hcalc]
  show (if rv = rv then Except.ok (getIndexGo h2 leaf 0 1 (genProofGo t e N 0 (i + 2 ^ N - 1)))
    else Except.error MerkleError.invalidLeaf) = _
  rw [if_pos rfl, hgo]
  norm_num

/-! ## Claims about the circuits -/

/-- C1 (amended): conjoining the Spend and Settle witnesses obtained from a
Main witness (sharing `old_note_balance_root` and the other carried values) is
satisfiable exactly when the Main witness is satisfiable AND additionally its
public `old_note_nullifier_hash` is the zero sentinel or genuinely valid
together with the membership proof; the extra conjunct is forced because the
split circuits pin the nullifier hash to zero in their genesis branch while
the Main circuit leaves it free. -/
theorem C1_split_equivalence (p n : ℕ) (h : Hasher p) (w : MainCircuit.Witness p n)
    (aux : ZMod p) :
    (SpendCircuit.constraintsSatisfied p n h (toSpend p n h w) ∧
      SettleCircuit.constraintsSatisfied p n h (toSettle p n w aux)) ↔
    (MainCircuit.constraintsSatisfied p n h w ∧
      (w.old_note_nullifier_hash = 0 ∨
        (MainCircuit.nullifierHashValid p n h w ∧ MainCircuit.oldNotePathValid p n h w))) := by
  unfold SpendCircuit.constraintsSatisfied SettleCircuit.constraintsSatisfied
    MainCircuit.constraintsSatisfied
  simp only [toSpend, toSettle, SpendCircuit.oldNote, SettleCircuit.oldNote, MainCircuit.oldNote]
  tauto

/-- C1: a witness satisfying the Main circuit but not the conjunction of the
corresponding Spend and Settle circuits: the genesis branch with a nonzero
`old_note_nullifier_hash` public input. -/
theorem C1_counterexample :
    MainCircuit.constraintsSatisfied 11 1 toyHasher mainGenesisNonzeroNullifierHash ∧
    ¬ (SpendCircuit.constraintsSatisfied 11 1 toyHasher
        (toSpend 11 1 toyHasher mainGenesisNonzeroNullifierHash) ∧
      SettleCircuit.constraintsSatisfied 11 1 toyHasher
        (toSettle 11 1 mainGenesisNonzeroNullifierHash 0)) := by
  decide

/-- C2 (amended): every assignment satisfying the Main circuit has the old
balance root equal to the zero-balance-root constant, or both a valid
nullifier hash and Merkle membership of the old note; the identifier
condition of the original claim is dropped: `MainCircuit::generate_constraints`
has no old-blinding witness and never checks how `old_note_identifier` was
derived. -/
theorem C2_genesis_or_valid (p n : ℕ) (h : Hasher p) (w : MainCircuit.Witness p n)
    (hsat : MainCircuit.constraintsSatisfied p n h w) :
    balanceRoot p n h w.old_note_balances = zeroBalanceRoot p h n ∨
      (MainCircuit.nullifierHashValid p n h w ∧ MainCircuit.oldNotePathValid p n h w) :=
  hsat.2.1

/-- C2 witness: the amended theorem applied to a concrete satisfying
assignment. -/
theorem C2_witness :
    MainCircuit.constraintsSatisfied 11 1 squareHasher mainForeignIdentifierWitness ∧
    (balanceRoot 11 1 squareHasher mainForeignIdentifierWitness.old_note_balances =
        zeroBalanceRoot 11 squareHasher 1 ∨
      (MainCircuit.nullifierHashValid 11 1 squareHasher mainForeignIdentifierWitness ∧
        MainCircuit.oldNotePathValid 11 1 squareHasher mainForeignIdentifierWitness)) :=
  ⟨by decide, C2_genesis_or_valid 11 1 squareHasher mainForeignIdentifierWitness (by decide)⟩

/-- C2: a satisfying non-genesis assignment whose public old-note identifier
is not the two-to-one hash of the witness address with ANY blinding value, so
the "identifier valid" conjunct of the claim fails while the constraint
system is satisfied. -/
theorem C2_counterexample :
    MainCircuit.constraintsSatisfied 11 1 squareHasher mainForeignIdentifierWitness ∧
    balanceRoot 11 1 squareHasher mainForeignIdentifierWitness.old_note_balances ≠
      zeroBalanceRoot 11 squareHasher 1 ∧
    ∀ blinding : ZMod 11,
      mainForeignIdentifierWitness.old_note_identifier ≠
        squareHasher.tto mainForeignIdentifierWitness.address blinding := by
  decide

/-- C3 (amended): `MainCircuit::generate_constraints` allocates exactly the
five public inputs `[utxo_root, diff_balance_root, old_note_nullifier_hash,
old_note_identifier, new_note]`, in that order — it has no `aux` input; the
`aux` public input exists only in `MainSettleCircuit`, where it is allocated
first. -/
theorem C3_public_inputs (p n : ℕ) (h : Hasher p) (w : MainCircuit.Witness p n)
    (w2 : SettleCircuit.Witness p n) :
    MainCircuit.publicInputs p n h w =
      [w.utxo_root, w.diff_balance_root, w.old_note_nullifier_hash,
        w.old_note_identifier, w.new_note] ∧
    SettleCircuit.publicInputs p n h w2 =
      [w2.aux, w2.diff_balance_root, w2.old_note_nullifier_hash,
        w2.old_note_identifier, w2.new_note] := by
  constructor <;>
    simp [MainCircuit.publicInputs, MainCircuit.allocTrace, SettleCircuit.publicInputs,
      SettleCircuit.allocTrace, List.filter_append, filter_input_of_witness_map,
      filter_input_of_path_alloc, Function.comp_def, filter_input_of_witness_ofFn]

/-- C3: the Main circuit's public-input vector has five entries, not the six
of the claimed `[aux, utxo_root, diff_balance_root, old_note_nullifier_hash,
old_note_identifier, new_note]`: no `aux` public input exists in
`MainCircuit::generate_constraints`. -/
theorem C3_counterexample :
    (MainCircuit.publicInputs 11 1 toyHasher mainZeroWitness).length ≠ 6 := by
  decide

/-- C4: in the Main circuit the genesis branch places no constraint on the
public `old_note_nullifier_hash`: for EVERY value `nh` (and arbitrary path
and UTXO root), the genesis witness with all-zero old balances and honestly
derived diff/new-note data satisfies the constraint system; by contrast both
split circuits force `old_note_nullifier_hash = 0` whenever their genesis
disjunct is the one that holds. -/
theorem C4_genesis_nullifier_free (p n : ℕ) (hp : 0 < p) (h : Hasher p) :
    (∀ (nh ident utxo addr nullifier nb : ZMod p) (diffs : Fin n → ZMod p)
        (path : List (ZMod p × ZMod p)),
      (∀ i, canonical p (diffs i)) →
      MainCircuit.constraintsSatisfied p n h
        (MainCircuit.genesisWitness p n h nh ident utxo addr nullifier nb diffs path)) ∧
    (∀ ws : SpendCircuit.Witness p,
      SpendCircuit.constraintsSatisfied p n h ws →
      ¬ (SpendCircuit.nullifierHashValid p h ws ∧ SpendCircuit.oldNotePathValid p h ws) →
      ws.old_note_nullifier_hash = 0) ∧
    (∀ wt : SettleCircuit.Witness p n,
      SettleCircuit.constraintsSatisfied p n h wt →
      ¬ SettleCircuit.nullifierHashValid p n h wt →
      wt.old_note_nullifier_hash = 0) := by
  haveI : NeZero p := ⟨by omega⟩
  refine ⟨fun nh ident utxo addr nullifier nb diffs path hd => ?_, fun ws hs hnv => ?_,
    fun wt ht hnv => ?_⟩
  · refine ⟨rfl, Or.inl ?_, rfl, fun i => ⟨?_, hd i, zero_add _⟩⟩
    · simp [MainCircuit.genesisWitness, balanceRoot, zeroBalanceRoot, List.ofFn_const]
    · simp [MainCircuit.genesisWitness, canonical, ZMod.val_zero]
  · rcases hs with ⟨_, hz⟩ | hv
    · exact hz
    · exact absurd hv hnv
  · rcases ht.2.1 with ⟨_, hz⟩ | hv
    · exact hz
    · exact absurd hv hnv

/-- C4 witness: the three parts of the theorem applied at concrete inputs. -/
theorem C4_witness :
    ((∀ i, canonical 11 ((![4] : Fin 1 → ZMod 11) i)) ∧
      MainCircuit.constraintsSatisfied 11 1 toyHasher
        (MainCircuit.genesisWitness 11 1 toyHasher 7 0 3 1 2 3 ![4] [(1, 2)])) ∧
    (SpendCircuit.constraintsSatisfied 11 1 toyHasher spendZeroSentinelWitness ∧
      ¬ (SpendCircuit.nullifierHashValid 11 toyHasher spendZeroSentinelWitness ∧
          SpendCircuit.oldNotePathValid 11 toyHasher spendZeroSentinelWitness) ∧
      spendZeroSentinelWitness.old_note_nullifier_hash = 0) ∧
    (SettleCircuit.constraintsSatisfied 11 1 toyHasher settleZeroSentinelWitness ∧
      ¬ SettleCircuit.nullifierHashValid 11 1 toyHasher settleZeroSentinelWitness ∧
      settleZeroSentinelWitness.old_note_nullifier_hash = 0) :=
  ⟨⟨by decide, (C4_genesis_nullifier_free 11 1 (by norm_num) toyHasher).1 7 0 3 1 2 3 ![4]
      [(1, 2)] (by decide)⟩,
    ⟨by decide, by decide, (C4_genesis_nullifier_free 11 1 (by norm_num) toyHasher).2.1
      spendZeroSentinelWitness (by decide) (by decide)⟩,
    ⟨by decide, by decide, (C4_genesis_nullifier_free 11 1 (by norm_num) toyHasher).2.2
      settleZeroSentinelWitness (by decide) (by decide)⟩⟩

/-- C6 (amended): when every old balance and every resulting new balance
passes the half-range check (a hypothesis the original claim omits and which
the range constraints make necessary), the fully honest witness with
`new = old + diff` satisfies the Main circuit, and changing any single new
balance by 1 while fixing everything else makes the constraint system
unsatisfied. -/
theorem C6_conservation (p n d : ℕ) (hp : 1 < p) (h : Hasher p)
    (addr nullifier ident nb : ZMod p) (olds diffs : Fin n → ZMod p)
    (hold : ∀ i, canonical p (olds i)) (hnew : ∀ i, canonical p (olds i + diffs i)) :
    MainCircuit.constraintsSatisfied p n h
      (MainCircuit.conservationWitness p n d h addr nullifier ident nb olds diffs) ∧
    ∀ j : Fin n, ¬ MainCircuit.constraintsSatisfied p n h
      (MainCircuit.bumpBalance p n
        (MainCircuit.conservationWitness p n d h addr nullifier ident nb olds diffs) j) := by
  haveI : Fact (1 < p) := ⟨hp⟩
  constructor
  · refine ⟨rfl, Or.inr ⟨rfl, ?_⟩, rfl, fun i => ⟨hold i, hnew i, rfl⟩⟩
    exact (rootHashGadget_spine p h.tto _ d).symm
  · intro j hsat
    have hj := (hsat.2.2.2 j).2.2
    simp only [MainCircuit.bumpBalance, MainCircuit.conservationWitness,
      Function.update_same] at hj
    exact one_ne_zero (self_eq_add_right.mp hj)

/-- C6 witness: the amended theorem applied at a concrete instance. -/
theorem C6_witness :
    ((∀ i, canonical 11 ((![1] : Fin 1 → ZMod 11) i)) ∧
      (∀ i, canonical 11 ((![1] : Fin 1 → ZMod 11) i + (![2] : Fin 1 → ZMod 11) i))) ∧
    (MainCircuit.constraintsSatisfied 11 1 toyHasher
        (MainCircuit.conservationWitness 11 1 1 toyHasher 0 0 0 0 ![1] ![2]) ∧
      ∀ j : Fin 1, ¬ MainCircuit.constraintsSatisfied 11 1 toyHasher
        (MainCircuit.bumpBalance 11 1
          (MainCircuit.conservationWitness 11 1 1 toyHasher 0 0 0 0 ![1] ![2]) j)) :=
  ⟨⟨by decide, by decide⟩,
    C6_conservation 11 1 1 (by norm_num) toyHasher 0 0 0 0 ![1] ![2] (by decide) (by decide)⟩

/-- C6: the claim as stated fails: the fully honest witness with all-zero old
balances and `diff_balances = [-1]` has `new = old + diff` in every slot and
every intermediate hash correctly derived, yet the constraint system is
unsatisfied (the new balance fails the half-range check). -/
theorem C6_counterexample :
    ¬ MainCircuit.constraintsSatisfied 11 1 toyHasher
        (MainCircuit.conservationWitness 11 1 1 toyHasher 0 0 0 0 ![0] ![-1]) := by
  decide

/-- C5: evaluation at the failing input of the native/arithmetized
disagreement.  For the depth-2 tree holding the single leaf `3` at index 1 (a
right child) over the non-commutative two-to-one hash `treeHashA`, the native
`Path::calculate_root` applied to `generate_membership_proof(1)` returns `Ok`
of `tree.root()`, but the arithmetized `PathVar::root_hash` over the same
path and leaf computes a different field value: at a right-child step the
gadget's conditional selection hashes `(current, sibling)` instead of the
recorded tree order `(left, right)`. -/
theorem C5_path_root_divergence :
    rightChildTree.root = some 6 ∧
    calculateRoot treeHashA (rightChildTree.generateMembershipProof 2 1) 3 = .ok 6 ∧
    rootHashGadget treeHashA 3 (rightChildTree.generateMembershipProof 2 1) = 1 ∧
    (1 : ZMod 11) ≠ 6 := by
  decide

/-- C7: over the BN254 scalar field with `N_ASSETS = 3`, all old-note data
zero/empty, `diff_balances = [-100, 0, 0]` and the new balances and new note
derived accordingly (the witness of the crate's `cannot_withdraw_empty` test),
the Main circuit's constraint system is unsatisfied for every hasher and every
choice of the remaining witness data, because `new_note_balances[0] = -100`
fails the canonical non-negativity range check. -/
theorem C7_negative_balance_rejected (h : Hasher bn254r)
    (addr nullifier nb utxo : ZMod bn254r) (path : List (ZMod bn254r × ZMod bn254r)) :
    MainCircuit.constraintsSatisfied bn254r 3 h
        (MainCircuit.withdrawEmptyWitness h addr nullifier nb utxo path) ↔ False := by
  rw [iff_false]
  intro hsat
  have hb := (hsat.2.2.2 0).2.1
  have hb0 : (MainCircuit.withdrawEmptyWitness h addr nullifier nb utxo path).new_note_balances 0
      = -100 := by
    simp [MainCircuit.withdrawEmptyWitness]
  rw [hb0] at hb
  haveI : NeZero bn254r := ⟨by norm_num [bn254r]⟩
  have h100 : (100 : ℕ) ≤ bn254r := by norm_num [bn254r]
  have hcast : ((bn254r - 100 : ℕ) : ZMod bn254r) = (-100 : ZMod bn254r) := by
    push_cast [Nat.cast_sub h100]
    rw [ZMod.natCast_self]
    ring
  rw [← hcast] at hb
  have hval : ((bn254r - 100 : ℕ) : ZMod bn254r).val = bn254r - 100 :=
    ZMod.val_cast_of_lt (by norm_num [bn254r])
  have hb2 : ((bn254r - 100 : ℕ) : ZMod bn254r).val ≤ (bn254r - 1) / 2 := hb
  rw [hval] at hb2
  simp only [bn254r] at hb2
  omega

/-- C8: for a legal parameterization `N < M`, the Migration circuit's
constraint system is satisfied exactly by witnesses with a valid old-note
nullifier hash and Merkle membership (no genesis bypass), a new note built
from the new balance root, the same identifier and the same nullifier, the
first `N` new balances equal to the old balances, and the remaining
`M - N` new balances zero. -/
theorem C8_migration_characterization (p N M : ℕ) (hNM : N < M) (h : Hasher p)
    (w : MigrationCircuit.Witness p N M) :
    MigrationCircuit.satisfied p N M h w ↔
      ((MigrationCircuit.nullifierHashValid p N M h w ∧
          MigrationCircuit.oldNotePathValid p N M h w) ∧
        w.new_note = h.crh [balanceRoot p M h w.new_note_balances,
          MigrationCircuit.identifier p N M h w, w.nullifier] ∧
        (∀ k : Fin N, w.old_note_balances k =
          w.new_note_balances (Fin.castLE (le_of_lt hNM) k)) ∧
        (∀ k : Fin M, N ≤ (k : ℕ) → w.new_note_balances k = 0)) := by
  have hsat : MigrationCircuit.satisfied p N M h w ↔ MigrationCircuit.constraints p N M h w := by
    unfold MigrationCircuit.satisfied MigrationCircuit.generateConstraints
    rw [if_pos hNM]
    exact ⟨fun ⟨C, hC, hc⟩ => (Option.some.inj hC).symm ▸ hc, fun hc => ⟨_, rfl, hc⟩⟩
  rw [hsat]
  unfold MigrationCircuit.constraints
  refine and_congr_right fun _ => and_congr_right fun _ => and_congr ?_ ?_
  · constructor
    · intro hz k
      have hk : (k : ℕ) < ((List.ofFn w.old_note_balances).zip
          (List.ofFn w.new_note_balances)).length := by
        simp [List.length_zip, Nat.lt_min]
        omega
      have := hz (((List.ofFn w.old_note_balances).zip (List.ofFn w.new_note_balances))[(k : ℕ)])
        (List.getElem_mem hk)
      simpa [List.getElem_zip, List.getElem_ofFn] using this
    · intro hk pr hpr
      obtain ⟨i, hi, rfl⟩ := List.mem_iff_getElem.mp hpr
      have hiNM : i < N ∧ i < M := by
        simpa [List.length_zip, Nat.lt_min] using hi
      simpa [List.getElem_zip, List.getElem_ofFn] using hk ⟨i, hiNM.1⟩
  · constructor
    · intro hz k hk
      have hik : (k : ℕ) - N < ((List.ofFn w.new_note_balances).drop N).length := by
        simp [List.length_drop]
        omega
      have := hz (((List.ofFn w.new_note_balances).drop N)[(k : ℕ) - N]) (List.getElem_mem hik)
      have harr : N + ((k : ℕ) - N) = (k : ℕ) := by omega
      simpa [List.getElem_drop, List.getElem_ofFn, harr] using this
    · intro hk x hx
      obtain ⟨i, hi, rfl⟩ := List.mem_iff_getElem.mp hx
      have hi2 : i < M - N := by
        simpa [List.length_drop] using hi
      have hiM : N + i < M := by omega
      simpa [List.getElem_drop, List.getElem_ofFn] using hk ⟨N + i, hiM⟩ (by simp)

/-- C8 witness: the characterization applied at a concrete `N = 1 < M = 2`
instance. -/
theorem C8_witness :
    (1 < 2) ∧
    (MigrationCircuit.satisfied 11 1 2 toyHasher migrationSmallWitness ↔
      ((MigrationCircuit.nullifierHashValid 11 1 2 toyHasher migrationSmallWitness ∧
          MigrationCircuit.oldNotePathValid 11 1 2 toyHasher migrationSmallWitness) ∧
        migrationSmallWitness.new_note = toyHasher.crh
          [balanceRoot 11 2 toyHasher migrationSmallWitness.new_note_balances,
            MigrationCircuit.identifier 11 1 2 toyHasher migrationSmallWitness,
            migrationSmallWitness.nullifier] ∧
        (∀ k : Fin 1, migrationSmallWitness.old_note_balances k =
          migrationSmallWitness.new_note_balances (Fin.castLE (le_of_lt (by norm_num)) k)) ∧
        (∀ k : Fin 2, 1 ≤ (k : ℕ) → migrationSmallWitness.new_note_balances k = 0))) :=
  ⟨by norm_num, C8_migration_characterization 11 1 2 (by norm_num) toyHasher
    migrationSmallWitness⟩

/-- C9: for every witness, `MigrationCircuit::generate_constraints` aborts at
its leading assertion (producing no constraints at all) exactly when
`N_ASSETS ≥ M_ASSETS`, and for `N_ASSETS < M_ASSETS` the assertion never
fires and the constraint set is produced. -/
theorem C9_migration_assertion (p N M : ℕ) (h : Hasher p) (w : MigrationCircuit.Witness p N M) :
    (M ≤ N → MigrationCircuit.generateConstraints p N M h w = none) ∧
    (N < M → MigrationCircuit.generateConstraints p N M h w =
      some (MigrationCircuit.constraints p N M h w)) := by
  constructor <;> intro hh <;> unfold MigrationCircuit.generateConstraints
  · rw [if_neg (by omega)]
  · rw [if_pos hh]

/-- C10 (amended): for every tree built via `insert_batch` from a fresh empty
tree, every index `i` whose leaf is stored with value `leaf`, and every level
at which `i`'s path step is a right child, PROVIDED the recorded pair at each
such level has distinct components (the condition the counterexample forces:
`get_index` decides left/right by a value-equality test, which misreads a
right child whose sibling carries an equal value), `Path::get_index` applied
to `tree.root()` and `generate_membership_proof(i)` returns `Ok` of the field
element encoding `i`. -/
theorem C10_round_trip (p N : ℕ) (h2 : ZMod p → ZMod p → ZMod p) (e0 : ZMod p)
    (s : SparseMerkleTree p) (hbuilt : BuiltFrom p N h2 e0 s) (hN : 0 < N)
    (i : ℕ) (hi : i < 2 ^ N) (leaf : ZMod p)
    (hleaf : s.tree (i + 2 ^ N - 1) = some leaf)
    (hside : ∀ m, m < N → Nat.testBit i m = true →
      ((s.generateMembershipProof N i).getD m (0, 0)).1 ≠
        ((s.generateMembershipProof N i).getD m (0, 0)).2)
    (rv : ZMod p) (hrv : s.root = some rv) :
    getIndex h2 (s.generateMembershipProof N i) rv leaf = .ok ((i : ℕ) : ZMod p) := by
  have hwf := builtFrom_wf p N h2 e0 s hN hbuilt
  have hpow : 2 ^ (N + 1) = 2 * 2 ^ N := by rw [pow_succ]; ring
  have hpow1 : 1 ≤ 2 ^ N := Nat.one_le_two_pow
  have hdep : IsDepth N (i + 2 ^ N - 1) := by
    unfold IsDepth
    omega
  have hchain := wf_parent_chain p N h2 (eAt s) s.tree hwf N (i + 2 ^ N - 1)
    (by rw [hleaf]; rfl)
  rw [parentIter_of_depth N _ hdep] at hchain
  obtain ⟨rv0, hrv0⟩ := Option.isSome_iff_exists.mp hchain
  have hroot : s.root = some rv0 := by
    unfold SparseMerkleTree.root
    rw [hrv0]
  rw [hroot] at hrv
  have hrveq : rv0 = rv := Option.some.inj hrv
  rw [← hrveq]
  exact tree_getIndex p N h2 (eAt s) s.tree hwf hN i hi leaf rv0 hleaf hrv0 hside

theorem twinLeafTree_built : BuiltFrom 11 1 treeHashB 0 twinLeafTree := by
  refine ⟨[[(0, 5), (1, 5)]], ?_, rfl⟩
  intro b hb
  simp only [List.mem_singleton] at hb
  subst hb
  refine ⟨?_, by decide⟩
  show List.Chain' (· < ·) [0, 1]
  exact List.chain'_cons.mpr ⟨by norm_num, List.chain'_singleton _⟩

/-- C10 witness: the amended theorem applied to a concrete built tree at
inserted index 0 (whose bits are all zero, so the side condition is vacuous). -/
theorem C10_witness :
    (BuiltFrom 11 1 treeHashB 0 twinLeafTree ∧
      twinLeafTree.tree (0 + 2 ^ 1 - 1) = some 5 ∧
      twinLeafTree.root = some 7 ∧
      (∀ m, m < 1 → Nat.testBit 0 m = true →
        ((twinLeafTree.generateMembershipProof 1 0).getD m (0, 0)).1 ≠
          ((twinLeafTree.generateMembershipProof 1 0).getD m (0, 0)).2)) ∧
    getIndex treeHashB (twinLeafTree.generateMembershipProof 1 0) 7 5 =
      .ok ((0 : ℕ) : ZMod 11) :=
  ⟨⟨twinLeafTree_built, by decide, by decide, by decide⟩,
    C10_round_trip 11 1 treeHashB 0 twinLeafTree twinLeafTree_built
      (by decide) 0 (by decide) 5 (by decide) (by decide) 7 (by decide)⟩

/-- C10: the round trip fails as claimed: in the depth-1 tree built by
inserting the equal leaves `5` at indices 0 and 1, `get_index` on the
membership proof generated for index 1 returns `Ok 0`, not the encoding of
the original index 1 — the left/right value-equality test misreads the right
child because its sibling holds the same value. -/
theorem C10_counterexample :
    twinLeafTree.tree (1 + 2 ^ 1 - 1) = some 5 ∧
    twinLeafTree.root = some 7 ∧
    getIndex treeHashB (twinLeafTree.generateMembershipProof 1 1) 7 5 =
      .ok ((0 : ℕ) : ZMod 11) ∧
    ((0 : ℕ) : ZMod 11) ≠ ((1 : ℕ) : ZMod 11) := by
  decide

/-- C9 witness: both directions of the theorem at concrete parameters. -/
theorem C9_witness :
    MigrationCircuit.generateConstraints 11 3 3 toyHasher migrationBadParamsWitness = none ∧
    MigrationCircuit.generateConstraints 11 1 2 toyHasher migrationSmallWitness =
      some (MigrationCircuit.constraints 11 1 2 toyHasher migrationSmallWitness) :=
  ⟨(C9_migration_assertion 11 3 3 toyHasher migrationBadParamsWitness).1 (by norm_num),
    (C9_migration_assertion 11 1 2 toyHasher migrationSmallWitness).2 (by norm_num)⟩

end NightMarket
